import Mathlib

/-!
Verification of the divisor engine of the dgon-tools repository
(src/graphs.h and src/divisors.h): Dhar's burning algorithm (`burn`),
divisor reduction (`reduce`), the positive-rank test (`has_positive_rank`),
and the brute-force gonality search (`find_positive_rank_divisor`,
`find_all_positive_rank_v0_reduced_divisors`, `find_gonality`).

The embedding is shallow: the graph is the adjacency-list structure of
graphs.h, divisors are integer-valued functions on vertex indices, and each
loop of the C++ code becomes a structurally recursive Lean function (loops
whose bound is not syntactic take an explicit fuel argument; sufficiency of
a concrete fuel is proved separately, so no behaviour is lost).
-/

/-- The graph data structure of graphs.h: `n` vertices `0..n-1`, an
adjacency list per vertex (with repetition for parallel edges).
`nbrs` is the list of adjacency lists; the vertex count `n` is its length. -/
structure MyGraph where
  nbrs : List (List ℕ)

/-- `G.n` of the source: number of vertices. -/
def gn (G : MyGraph) : ℕ := G.nbrs.length

/-- `G.neighbours[i]` of the source (empty out of range). -/
def nbr (G : MyGraph) (i : ℕ) : List ℕ := G.nbrs.getD i []

/-- Number of edges between `i` and `j` (the adjacency-count matrix
`__adj_matr[i][j]` that `is_valid_undirected_graph` materialises). -/
def mult (G : MyGraph) (i j : ℕ) : ℕ := (nbr G i).count j

/-- Degree of vertex `i`: the length of its adjacency list. -/
def degr (G : MyGraph) (i : ℕ) : ℕ := (nbr G i).length

/-- Total multiplicity of edges from the vertex set `S` to `v`. -/
def edgesTo (G : MyGraph) (S : Finset ℕ) (v : ℕ) : ℕ := ∑ i ∈ S, mult G i v

/-- The validity invariant checked by `my_graph::is_valid_undirected_graph`
(and maintained by `add_edge`): neighbour entries are genuine vertices, no
self-loops, and the edge-count matrix is symmetric. -/
def ValidGraph (G : MyGraph) : Prop :=
  (∀ i, ∀ j ∈ nbr G i, j < gn G ∧ j ≠ i) ∧ (∀ i j, mult G i j = mult G j i)

/-- Bounded (hence decidable) form of `ValidGraph`, for concrete graphs. -/
def validB (G : MyGraph) : Prop :=
  (∀ i < gn G, ∀ j ∈ nbr G i, j < gn G ∧ j ≠ i) ∧
    (∀ i < gn G, ∀ j < gn G, mult G i j = mult G j i)

instance (G : MyGraph) : Decidable (validB G) := by
  unfold validB; infer_instance

theorem nbr_out_of_range (G : MyGraph) (i : ℕ) (h : gn G ≤ i) : nbr G i = [] := by
  unfold nbr
  exact List.getD_eq_default _ _ (by simpa [gn] using h)

theorem validB_iff (G : MyGraph) : ValidGraph G ↔ validB G := by
  constructor
  · rintro ⟨h1, h2⟩
    exact ⟨fun i _ => h1 i, fun i _ j _ => h2 i j⟩
  · rintro ⟨h1, h2⟩
    have hmem : ∀ i, ∀ j ∈ nbr G i, j < gn G ∧ j ≠ i := by
      intro i j hj
      by_cases hi : i < gn G
      · exact h1 i hi j hj
      · rw [nbr_out_of_range G i (le_of_not_lt hi)] at hj
        simp at hj
    refine ⟨hmem, fun i j => ?_⟩
    by_cases hi : i < gn G
    · by_cases hj : j < gn G
      · exact h2 i hi j hj
      · have l : mult G i j = 0 := by
          unfold mult
          rw [List.count_eq_zero]
          intro hmem'
          exact hj (hmem i j hmem').1
        have r : mult G j i = 0 := by
          unfold mult
          rw [nbr_out_of_range G j (le_of_not_lt hj)]
          simp
        rw [l, r]
    · have l : mult G i j = 0 := by
        unfold mult
        rw [nbr_out_of_range G i (le_of_not_lt hi)]
        simp
      have r : mult G j i = 0 := by
        unfold mult
        rw [List.count_eq_zero]
        intro hmem'
        exact hi (hmem j i hmem').1
      rw [l, r]

theorem mult_out_of_range (G : MyGraph) (hG : ValidGraph G) (i j : ℕ)
    (h : gn G ≤ j) : mult G i j = 0 := by
  unfold mult
  rw [List.count_eq_zero]
  intro hmem
  exact absurd (hG.1 i j hmem).1 (not_lt.mpr h)

/-- Sum over all vertices of the multiplicities into `v` is the degree of `v`
(symmetry of the multigraph). -/
theorem edgesTo_range (G : MyGraph) (hG : ValidGraph G) (v : ℕ) :
    edgesTo G (Finset.range (gn G)) v = degr G v := by
  unfold edgesTo degr
  have h1 : ∀ i, mult G i v = mult G v i := fun i => (hG.2 i v).symm ▸ rfl
  calc ∑ i ∈ Finset.range (gn G), mult G i v
      = ∑ i ∈ Finset.range (gn G), (nbr G v).count i := by
        refine Finset.sum_congr rfl fun i _ => ?_
        rw [hG.2 i v]; rfl
    _ = (nbr G v).length := by
        rw [← List.sum_toFinset_count_eq_length (nbr G v)]
        refine (Finset.sum_subset ?_ ?_).symm
        · intro x hx
          rw [List.mem_toFinset] at hx
          exact Finset.mem_range.mpr (hG.1 v x hx).1
        · intro x _ hx
          rw [List.mem_toFinset] at hx
          simpa [List.count_eq_zero] using hx

theorem edgesTo_mono (G : MyGraph) {S T : Finset ℕ} (h : S ⊆ T) (v : ℕ) :
    edgesTo G S v ≤ edgesTo G T v :=
  Finset.sum_le_sum_of_subset h

theorem edgesTo_insert (G : MyGraph) {S : Finset ℕ} {i : ℕ} (h : i ∉ S) (v : ℕ) :
    edgesTo G (insert i S) v = edgesTo G S v + mult G i v := by
  unfold edgesTo
  rw [Finset.sum_insert h, Nat.add_comm]

/-!  ## Dhar's burning algorithm (`burn` of divisors.h)

The C++ function keeps a FIFO work queue; popping `i` walks `G.neighbours[i]`
incrementing `__burnt_edges[j]` and pushing every `j` whose counter first
exceeds `divisor[j]`.  `procNbrs` is the inner `for` loop (returning the
updated pushed-set, updated counters, and the vertices newly pushed, in
order); `burnLoopF` is the outer `while` loop, with a fuel argument whose
sufficiency is proved in `burnLoopF_isSome`. -/

def procNbrs (D : ℕ → ℤ) : List ℕ → Finset ℕ → (ℕ → ℕ) → Finset ℕ × (ℕ → ℕ) × List ℕ
  | [], P, be => (P, be, [])
  | j :: rest, P, be =>
    let be1 := Function.update be j (be j + 1)
    if (D j : ℤ) < (be1 j : ℤ) ∧ j ∉ P then
      let r := procNbrs D rest (insert j P) be1
      (r.1, r.2.1, j :: r.2.2)
    else
      procNbrs D rest P be1

def burnLoopF (G : MyGraph) (D : ℕ → ℤ) : ℕ → Finset ℕ → (ℕ → ℕ) → List ℕ → Option (Finset ℕ)
  | 0, _, _, _ => none
  | _ + 1, P, _, [] => some P
  | fuel + 1, P, be, i :: rest =>
    let r := procNbrs D (nbr G i) P be
    burnLoopF G D fuel r.1 r.2.1 (rest ++ r.2.2)

/-- All vertices that can ever be pushed besides the start: every entry of
every adjacency list. -/
def allNbrs (G : MyGraph) : Finset ℕ :=
  (G.nbrs.foldr (fun l acc => l ++ acc) []).toFinset

/-- Fuel sufficient for the burning loop on `G` (each loop iteration pops one
queue entry, every pushed vertex other than the start lies in `allNbrs G`). -/
def burnFuel (G : MyGraph) : ℕ := 2 * (allNbrs G).card + 2

/-- `burn(G, divisor, start)`: the final contents of `__pushed_to_queue`
as a set (the burnt vertices). -/
def burnPushed (G : MyGraph) (D : ℕ → ℤ) (start : ℕ) : Finset ℕ :=
  (burnLoopF G D (burnFuel G) {start} (fun _ => 0) [start]).getD ∅

/-- The firing set written to `__firing_set` (unburnt vertices, in increasing
order), whose length is the return value of `burn`. -/
def burnFS (G : MyGraph) (D : ℕ → ℤ) (start : ℕ) : List ℕ :=
  (List.range (gn G)).filter (fun v => decide (v ∉ burnPushed G D start))

theorem procNbrs_be (D : ℕ → ℤ) (L : List ℕ) (P : Finset ℕ) (be : ℕ → ℕ) :
    ∀ j, (procNbrs D L P be).2.1 j = be j + L.count j := by
  induction L generalizing P be with
  | nil => intro j; simp [procNbrs]
  | cons a t ih =>
    intro j
    simp only [procNbrs]
    by_cases h : (D a : ℤ) < ((Function.update be a (be a + 1)) a : ℤ) ∧ a ∉ P
    · simp only [if_pos h]
      rw [ih]
      by_cases hj : j = a
      · subst hj
        simp only [Function.update_same, List.count_cons_self]
        omega
      · rw [Function.update_noteq hj, List.count_cons_of_ne hj]
    · simp only [if_neg h]
      rw [ih]
      by_cases hj : j = a
      · subst hj
        simp only [Function.update_same, List.count_cons_self]
        omega
      · rw [Function.update_noteq hj, List.count_cons_of_ne hj]

theorem procNbrs_P (D : ℕ → ℤ) (L : List ℕ) (P : Finset ℕ) (be : ℕ → ℕ) :
    (procNbrs D L P be).1 = P ∪ (procNbrs D L P be).2.2.toFinset := by
  induction L generalizing P be with
  | nil => simp [procNbrs]
  | cons a t ih =>
    simp only [procNbrs]
    by_cases h : (D a : ℤ) < ((Function.update be a (be a + 1)) a : ℤ) ∧ a ∉ P
    · simp only [if_pos h]
      rw [ih]
      ext x
      simp only [Finset.mem_union, Finset.mem_insert, List.toFinset_cons, List.mem_toFinset]
      tauto
    · simp only [if_neg h]
      exact ih P _

theorem procNbrs_sub (D : ℕ → ℤ) (L : List ℕ) (P : Finset ℕ) (be : ℕ → ℕ) :
    P ⊆ (procNbrs D L P be).1 := by
  rw [procNbrs_P]; exact Finset.subset_union_left

theorem procNbrs_new_mem (D : ℕ → ℤ) (L : List ℕ) (P : Finset ℕ) (be : ℕ → ℕ) :
    ∀ j ∈ (procNbrs D L P be).2.2, j ∉ P ∧ j ∈ L := by
  induction L generalizing P be with
  | nil => simp [procNbrs]
  | cons a t ih =>
    simp only [procNbrs]
    by_cases h : (D a : ℤ) < ((Function.update be a (be a + 1)) a : ℤ) ∧ a ∉ P
    · simp only [if_pos h]
      intro j hj
      rcases List.mem_cons.mp hj with hj | hj
      · subst hj; exact ⟨h.2, List.mem_cons_self _ _⟩
      · have := ih (insert a P) _ j hj
        exact ⟨fun hP => this.1 (Finset.mem_insert_of_mem hP), List.mem_cons_of_mem _ this.2⟩
    · simp only [if_neg h]
      intro j hj
      have := ih P _ j hj
      exact ⟨this.1, List.mem_cons_of_mem _ this.2⟩

theorem procNbrs_new_nodup (D : ℕ → ℤ) (L : List ℕ) (P : Finset ℕ) (be : ℕ → ℕ) :
    (procNbrs D L P be).2.2.Nodup := by
  induction L generalizing P be with
  | nil => simp [procNbrs]
  | cons a t ih =>
    simp only [procNbrs]
    by_cases h : (D a : ℤ) < ((Function.update be a (be a + 1)) a : ℤ) ∧ a ∉ P
    · simp only [if_pos h]
      refine List.nodup_cons.mpr ⟨?_, ih _ _⟩
      intro hmem
      exact (procNbrs_new_mem D t (insert a P) _ a hmem).1 (Finset.mem_insert_self a P)
    · simp only [if_neg h]
      exact ih P _

theorem procNbrs_new_lt (D : ℕ → ℤ) (L : List ℕ) (P : Finset ℕ) (be : ℕ → ℕ) :
    ∀ j ∈ (procNbrs D L P be).2.2, (D j : ℤ) < ((procNbrs D L P be).2.1 j : ℤ) := by
  induction L generalizing P be with
  | nil => simp [procNbrs]
  | cons a t ih =>
    simp only [procNbrs]
    by_cases h : (D a : ℤ) < ((Function.update be a (be a + 1)) a : ℤ) ∧ a ∉ P
    · simp only [if_pos h]
      intro j hj
      rcases List.mem_cons.mp hj with hj | hj
      · subst hj
        have hle : ((Function.update be j (be j + 1)) j : ℤ) ≤
            ((procNbrs D t (insert j P) (Function.update be j (be j + 1))).2.1 j : ℤ) := by
          rw [procNbrs_be]
          exact_mod_cast Nat.le_add_right _ _
        exact lt_of_lt_of_le h.1 hle
      · exact ih (insert a P) _ j hj
    · simp only [if_neg h]
      exact ih P _

theorem procNbrs_thresh (D : ℕ → ℤ) (L : List ℕ) (P : Finset ℕ) (be : ℕ → ℕ) :
    ∀ j, j ∉ (procNbrs D L P be).1 → (be j : ℤ) ≤ D j →
      (((procNbrs D L P be).2.1 j : ℤ)) ≤ D j := by
  induction L generalizing P be with
  | nil => intro j _ h; simpa [procNbrs] using h
  | cons a t ih =>
    simp only [procNbrs]
    by_cases h : (D a : ℤ) < ((Function.update be a (be a + 1)) a : ℤ) ∧ a ∉ P
    · simp only [if_pos h]
      intro j hj hle
      have hja : j ≠ a := by
        rintro rfl
        apply hj
        rw [procNbrs_P]
        exact Finset.mem_union_left _ (Finset.mem_insert_self j P)
      refine ih (insert a P) _ j hj ?_
      simpa [Function.update, hja] using hle
    · simp only [if_neg h]
      intro j hj hle
      by_cases hja : j = a
      · subst hja
        rcases not_and_or.mp h with hc | hc
        · refine ih P _ j hj ?_
          simp only [Function.update_same, not_lt] at hc ⊢
          exact hc
        · exfalso
          exact hj (procNbrs_sub D t P _ (not_not.mp hc))
      · refine ih P _ j hj ?_
        rw [Function.update_noteq hja]
        exact hle

theorem mem_foldr_append {α : Type} (L : List (List α)) (l : List α) (hl : l ∈ L) :
    ∀ x ∈ l, x ∈ L.foldr (fun a acc => a ++ acc) [] := by
  induction L with
  | nil => simp at hl
  | cons a t ih =>
    intro x hx
    rcases List.mem_cons.mp hl with h | h
    · exact List.mem_append_left _ (h ▸ hx)
    · exact List.mem_append_right _ (ih h x hx)

theorem mem_allNbrs (G : MyGraph) (i : ℕ) : ∀ x ∈ nbr G i, x ∈ allNbrs G := by
  intro x hx
  unfold allNbrs
  rw [List.mem_toFinset]
  unfold nbr at hx
  by_cases hi : i < G.nbrs.length
  · rw [List.getD_eq_getElem _ _ hi] at hx
    exact mem_foldr_append G.nbrs G.nbrs[i] (List.getElem_mem hi) x hx
  · rw [List.getD_eq_default _ _ (le_of_not_lt hi)] at hx
    simp at hx

theorem procNbrs_card (D : ℕ → ℤ) (L : List ℕ) (P U : Finset ℕ)
    (be : ℕ → ℕ) (hU : ∀ x ∈ L, x ∈ U) :
    (U \ (procNbrs D L P be).1).card + (procNbrs D L P be).2.2.length
      = (U \ P).card := by
  rw [procNbrs_P]
  have hsub : (procNbrs D L P be).2.2.toFinset ⊆ U \ P := by
    intro x hx
    rw [List.mem_toFinset] at hx
    have := procNbrs_new_mem D L P be x hx
    exact Finset.mem_sdiff.mpr ⟨hU x this.2, this.1⟩
  have hcard : (procNbrs D L P be).2.2.toFinset.card = (procNbrs D L P be).2.2.length :=
    List.toFinset_card_of_nodup (procNbrs_new_nodup D L P be)
  have hsd : U \ (P ∪ (procNbrs D L P be).2.2.toFinset)
      = (U \ P) \ (procNbrs D L P be).2.2.toFinset := by
    ext x; simp only [Finset.mem_sdiff, Finset.mem_union]; tauto
  rw [hsd, Finset.card_sdiff hsub, hcard]
  have hle : (procNbrs D L P be).2.2.length ≤ (U \ P).card := by
    rw [← hcard]
    exact Finset.card_le_card hsub
  omega

theorem burnLoopF_isSome (G : MyGraph) (D : ℕ → ℤ) :
    ∀ fuel P be (q : List ℕ),
      2 * ((allNbrs G \ P).card) + q.length < fuel →
      (burnLoopF G D fuel P be q).isSome := by
  intro fuel
  induction fuel with
  | zero => intro P be q h; omega
  | succ f ih =>
    intro P be q h
    match q with
    | [] => simp [burnLoopF]
    | i :: rest =>
      simp only [burnLoopF]
      apply ih
      have hcard := procNbrs_card D (nbr G i) P (allNbrs G) be (mem_allNbrs G i)
      simp only [List.length_cons] at h
      simp only [List.length_append]
      omega

/-- The burning relation that `burn` computes, stated as the least fixed
point described in the spec: the start vertex is burnt unconditionally, and a
vertex `v` of `G` burns as soon as its count of edges to already-burnt
vertices (with multiplicity) exceeds `D v`. -/
inductive Burns (G : MyGraph) (D : ℕ → ℤ) (start : ℕ) : ℕ → Prop
  | init : Burns G D start start
  | step (v : ℕ) (S : Finset ℕ) (hvn : v < gn G)
      (hS : ∀ w ∈ S, Burns G D start w)
      (hv : (D v : ℤ) < (edgesTo G S v : ℤ)) : Burns G D start v

theorem burnLoopF_char (G : MyGraph) (D : ℕ → ℤ) (start : ℕ)
    (hG : ValidGraph G) :
    ∀ fuel P be (q : List ℕ) (done R : Finset ℕ),
      burnLoopF G D fuel P be q = some R →
      P = done ∪ q.toFinset →
      q.Nodup →
      (∀ i ∈ q, i ∉ done) →
      (∀ j, be j = edgesTo G done j) →
      (∀ j, j < gn G → j ∉ P → (be j : ℤ) ≤ D j) →
      (∀ j ∈ P, Burns G D start j) →
      start ∈ P →
      P ⊆ R ∧ (∀ j ∈ R, Burns G D start j) ∧
        (∀ j, j < gn G → j ∉ R → (edgesTo G R j : ℤ) ≤ D j) ∧ start ∈ R := by
  intro fuel
  induction fuel with
  | zero => intro P be q done R hrun; simp [burnLoopF] at hrun
  | succ f ih =>
    intro P be q done R hrun hPdq hnd hdisj hbe hth hB hst
    match q with
    | [] =>
      simp only [burnLoopF, Option.some_inj] at hrun
      subst hrun
      have hPd : P = done := by simpa using hPdq
      refine ⟨Finset.Subset.refl _, hB, ?_, hst⟩
      intro j hj hjP
      have h2 := hth j hj hjP
      rw [hbe j] at h2
      rw [hPd]
      exact h2
    | i :: rest =>
      simp only [burnLoopF] at hrun
      have hPx : ∀ x, x ∈ P ↔ (x ∈ done ∨ x = i ∨ x ∈ rest) := by
        intro x
        rw [hPdq]
        simp only [Finset.mem_union, List.toFinset_cons, Finset.mem_insert, List.mem_toFinset]
        try tauto
      have hiP : i ∈ P := (hPx i).mpr (Or.inr (Or.inl rfl))
      have hidone : i ∉ done := hdisj i (List.mem_cons_self _ _)
      have hirest : i ∉ rest := (List.nodup_cons.mp hnd).1
      have hrestnd : rest.Nodup := (List.nodup_cons.mp hnd).2
      have hnewmem := procNbrs_new_mem D (nbr G i) P be
      have hnewnd := procNbrs_new_nodup D (nbr G i) P be
      have hnewlt := procNbrs_new_lt D (nbr G i) P be
      have hrP := procNbrs_P D (nbr G i) P be
      have hrbe := procNbrs_be D (nbr G i) P be
      have hPsub : P ⊆ (procNbrs D (nbr G i) P be).1 := procNbrs_sub D (nbr G i) P be
      -- the new `be` counts edges from `insert i done`
      have hbe' : ∀ j, (procNbrs D (nbr G i) P be).2.1 j = edgesTo G (insert i done) j := by
        intro j
        rw [hrbe j, hbe j, edgesTo_insert G hidone]
        rfl
      have hres := ih (procNbrs D (nbr G i) P be).1 (procNbrs D (nbr G i) P be).2.1
        (rest ++ (procNbrs D (nbr G i) P be).2.2) (insert i done) R hrun ?_ ?_ ?_ hbe' ?_ ?_ ?_
      · exact ⟨Finset.Subset.trans hPsub hres.1, hres.2.1, hres.2.2.1, hres.2.2.2⟩
      -- P' = done' ∪ (rest ++ new).toFinset
      · ext x
        rw [hrP]
        simp only [Finset.mem_union, Finset.mem_insert, List.toFinset_append,
          List.mem_toFinset, List.mem_append]
        have h := hPx x
        tauto
      -- nodup
      · rw [List.nodup_append]
        refine ⟨hrestnd, hnewnd, ?_⟩
        intro a ha hanew
        exact (hnewmem a hanew).1 ((hPx a).mpr (Or.inr (Or.inr ha)))
      -- queue disjoint from done'
      · intro j hj
        rcases List.mem_append.mp hj with hj | hj
        · intro hmem
          rcases Finset.mem_insert.mp hmem with hji | hjd
          · exact hirest (hji ▸ hj)
          · exact hdisj j (List.mem_cons_of_mem _ hj) hjd
        · intro hmem
          apply (hnewmem j hj).1
          rcases Finset.mem_insert.mp hmem with hji | hjd
          · exact hji ▸ hiP
          · exact (hPx j).mpr (Or.inl hjd)
      -- threshold
      · intro j hj hjP'
        have hjP : j ∉ P := fun hc => hjP' (hPsub hc)
        exact procNbrs_thresh D (nbr G i) P be j hjP' (hth j hj hjP)
      -- everything pushed burns
      · intro j hj
        rw [hrP] at hj
        rcases Finset.mem_union.mp hj with hj | hj
        · exact hB j hj
        · rw [List.mem_toFinset] at hj
          have hjnbr : j ∈ nbr G i := (hnewmem j hj).2
          refine Burns.step j (insert i done) (hG.1 i j hjnbr).1 ?_ ?_
          · intro w hw
            rcases Finset.mem_insert.mp hw with hw | hw
            · exact hB w (hw ▸ hiP)
            · exact hB w ((hPx w).mpr (Or.inl hw))
          · rw [← hbe' j]
            exact hnewlt j hj
      · exact hPsub hst

theorem burnPushed_isSome (G : MyGraph) (D : ℕ → ℤ) (start : ℕ) :
    ∃ R, burnLoopF G D (burnFuel G) {start} (fun _ => 0) [start] = some R := by
  have h := burnLoopF_isSome G D (burnFuel G) {start} (fun _ => 0) [start] ?_
  · exact Option.isSome_iff_exists.mp h
  · unfold burnFuel
    have : (allNbrs G \ {start}).card ≤ (allNbrs G).card :=
      Finset.card_le_card (Finset.sdiff_subset)
    simp only [List.length_cons, List.length_nil]
    omega

theorem Option_getD_of_eq_some {α : Type} {o : Option α} {a d : α} (h : o = some a) :
    o.getD d = a := by rw [h]; rfl

theorem burnPushed_spec (G : MyGraph) (D : ℕ → ℤ) (start : ℕ) (hG : ValidGraph G)
    (hD : ∀ v < gn G, v ≠ start → 0 ≤ D v) :
    (∀ j ∈ burnPushed G D start, Burns G D start j) ∧
      (∀ j, j < gn G → j ∉ burnPushed G D start →
        (edgesTo G (burnPushed G D start) j : ℤ) ≤ D j) ∧
      start ∈ burnPushed G D start := by
  obtain ⟨R, hR⟩ := burnPushed_isSome G D start
  have hBP : burnPushed G D start = R := Option_getD_of_eq_some hR
  have hres := burnLoopF_char G D start hG (burnFuel G) {start} (fun _ => 0) [start] ∅ R hR
    (by simp) (by simp) (by simp) (by intro j; simp [edgesTo]) ?_ ?_ (by simp)
  · rw [hBP]
    exact ⟨hres.2.1, hres.2.2.1, hres.2.2.2⟩
  · intro j hj hjp
    have : j ≠ start := by simpa using hjp
    simpa using hD j hj this
  · intro j hj
    simp only [Finset.mem_singleton] at hj
    subst hj
    exact Burns.init

theorem Burns_lt (G : MyGraph) (D : ℕ → ℤ) (start : ℕ) :
    ∀ v, Burns G D start v → v = start ∨ v < gn G := by
  intro v hv
  induction hv with
  | init => exact Or.inl rfl
  | step v S hvn _ _ _ => exact Or.inr hvn

theorem Burns_mem_burnPushed (G : MyGraph) (D : ℕ → ℤ) (start : ℕ) (hG : ValidGraph G)
    (hD : ∀ v < gn G, v ≠ start → 0 ≤ D v) :
    ∀ v, Burns G D start v → v ∈ burnPushed G D start := by
  have hspec := burnPushed_spec G D start hG hD
  intro v hv
  induction hv with
  | init => exact hspec.2.2
  | step v S hvn hS hv ih =>
    by_contra hvR
    have hsat := hspec.2.1 v hvn hvR
    have hsub : S ⊆ burnPushed G D start := fun w hw => ih w hw
    have hmono : (edgesTo G S v : ℤ) ≤ (edgesTo G (burnPushed G D start) v : ℤ) := by
      exact_mod_cast edgesTo_mono G hsub v
    omega

theorem mem_burnPushed_iff (G : MyGraph) (D : ℕ → ℤ) (start : ℕ) (hG : ValidGraph G)
    (hD : ∀ v < gn G, v ≠ start → 0 ≤ D v) :
    ∀ v, v ∈ burnPushed G D start ↔ Burns G D start v :=
  fun v => ⟨(burnPushed_spec G D start hG hD).1 v,
    Burns_mem_burnPushed G D start hG hD v⟩

theorem mem_burnFS (G : MyGraph) (D : ℕ → ℤ) (start : ℕ) :
    ∀ v, v ∈ burnFS G D start ↔ (v < gn G ∧ v ∉ burnPushed G D start) := by
  intro v
  unfold burnFS
  rw [List.mem_filter, List.mem_range]
  simp

/-- **C2.** `burn(G, D, start)` returns exactly the vertices of `G` left
unburnt by the propagation `Burns` (start burnt unconditionally, a vertex
burning as soon as its count of edges to burnt vertices exceeds its chip
count); the returned set avoids `start`, and it is empty iff every vertex of
`G` is eventually burnt. -/
theorem burn_correct (G : MyGraph) (D : ℕ → ℤ) (start : ℕ) (hG : ValidGraph G)
    (hs : start < gn G) (hD : ∀ v < gn G, v ≠ start → 0 ≤ D v) :
    (∀ v, v ∈ burnFS G D start ↔ (v < gn G ∧ ¬ Burns G D start v)) ∧
      (∀ v ∈ burnFS G D start, v < gn G ∧ v ≠ start) ∧
      ((burnFS G D start).length = 0 ↔ ∀ v < gn G, Burns G D start v) := by
  have hiff := mem_burnPushed_iff G D start hG hD
  have hmem : ∀ v, v ∈ burnFS G D start ↔ (v < gn G ∧ ¬ Burns G D start v) := by
    intro v
    rw [mem_burnFS]
    constructor
    · rintro ⟨h1, h2⟩
      exact ⟨h1, fun hb => h2 ((hiff v).mpr hb)⟩
    · rintro ⟨h1, h2⟩
      exact ⟨h1, fun hp => h2 ((hiff v).mp hp)⟩
  refine ⟨hmem, ?_, ?_⟩
  · intro v hv
    have h := (hmem v).mp hv
    refine ⟨h.1, ?_⟩
    rintro rfl
    exact h.2 Burns.init
  · rw [List.length_eq_zero]
    constructor
    · intro hnil v hvn
      by_contra hnb
      have : v ∈ burnFS G D start := (hmem v).mpr ⟨hvn, hnb⟩
      rw [hnil] at this
      simp at this
    · intro hall
      rw [List.eq_nil_iff_forall_not_mem]
      intro v hv
      have h := (hmem v).mp hv
      exact h.2 (hall v h.1)

/-- The cycle `C_4` (adjacency lists as built by `add_edge` for edges
01, 12, 23, 30). -/
def gC4 : MyGraph := ⟨[[1, 3], [0, 2], [1, 3], [0, 2]]⟩

/-- Witness for C2 on the spec's own micro-test: `C_4` with divisor
`[2,0,0,0]` and start `0`. -/
theorem burn_correct_witness :
    (∀ v, v ∈ burnFS gC4 (fun v => if v = 0 then 2 else 0) 0 ↔
      (v < gn gC4 ∧ ¬ Burns gC4 (fun v => if v = 0 then 2 else 0) 0 v)) ∧
      (∀ v ∈ burnFS gC4 (fun v => if v = 0 then 2 else 0) 0, v < gn gC4 ∧ v ≠ 0) ∧
      ((burnFS gC4 (fun v => if v = 0 then 2 else 0) 0).length = 0 ↔
        ∀ v < gn gC4, Burns gC4 (fun v => if v = 0 then 2 else 0) 0 v) :=
  burn_correct gC4 (fun v => if v = 0 then 2 else 0) 0
    ((validB_iff gC4).mpr (by decide)) (by decide) (by decide)

theorem Burns_congr (G : MyGraph) (start : ℕ) (D1 D2 : ℕ → ℤ)
    (h : ∀ v < gn G, v ≠ start → D1 v = D2 v) :
    ∀ v, Burns G D1 start v → Burns G D2 start v := by
  intro v hv
  induction hv with
  | init => exact Burns.init
  | step v S hvn hS hv ih =>
    by_cases hvs : v = start
    · subst hvs; exact Burns.init
    · refine Burns.step v S hvn (fun w hw => ih w hw) ?_
      rw [← h v hvn hvs]
      exact hv

/-- **C9.** `burn` never reads the chip count of the starting vertex: two
divisors that agree away from `start` (and are non-negative there) yield the
same firing set. -/
theorem burn_start_independent (G : MyGraph) (D1 D2 : ℕ → ℤ) (start : ℕ)
    (hG : ValidGraph G) (hs : start < gn G)
    (hagree : ∀ v < gn G, v ≠ start → D1 v = D2 v)
    (h1 : ∀ v < gn G, v ≠ start → 0 ≤ D1 v)
    (h2 : ∀ v < gn G, v ≠ start → 0 ≤ D2 v) :
    burnFS G D1 start = burnFS G D2 start := by
  unfold burnFS
  refine List.filter_congr ?_
  intro v hv
  rw [List.mem_range] at hv
  have e1 := mem_burnPushed_iff G D1 start hG h1 v
  have e2 := mem_burnPushed_iff G D2 start hG h2 v
  have hB : Burns G D1 start v ↔ Burns G D2 start v :=
    ⟨Burns_congr G start D1 D2 hagree v,
     Burns_congr G start D2 D1 (fun w hw hws => (hagree w hw hws).symm) v⟩
  simp only [decide_eq_decide]
  rw [e1, e2, hB]

/-- Witness for C9: on `C_4`, divisors `[5,1,0,1]` and `[-7,1,0,1]` agree off
vertex `0` and give the same firing set. -/
theorem burn_start_independent_witness :
    burnFS gC4 (fun v => if v = 0 then 5 else if v = 2 then 0 else 1) 0 =
      burnFS gC4 (fun v => if v = 0 then -7 else if v = 2 then 0 else 1) 0 :=
  burn_start_independent gC4 _ _ 0 ((validB_iff gC4).mpr (by decide)) (by decide)
    (by decide) (by decide) (by decide)

/-! ## Firing sets, the graph Laplacian, and linear equivalence

Firing a vertex `v` is the inner loop of `reduce` and `has_positive_rank`:
`for (auto w : G.neighbours[v]) { tmp[v]--; tmp[w]++; }`. -/

def fireOne (G : MyGraph) (d : ℕ → ℤ) (v : ℕ) : ℕ → ℤ :=
  (nbr G v).foldl
    (fun e w =>
      Function.update (Function.update e v (e v - 1)) w
        ((Function.update e v (e v - 1)) w + 1)) d

/-- Fire every vertex of the list `F` in order (the outer loop over
`__firing_set` in `reduce` and `has_positive_rank`). -/
def fireList (G : MyGraph) (d : ℕ → ℤ) (F : List ℕ) : ℕ → ℤ :=
  F.foldl (fun e v => fireOne G e v) d

/-- Edge multiplicity from the list `F` (with repetition) into `x`. -/
def edgesL (G : MyGraph) (F : List ℕ) (x : ℕ) : ℕ :=
  (F.map (fun v => mult G v x)).sum

theorem fireStep_apply (d : ℕ → ℤ) (v w x : ℕ) :
    Function.update (Function.update d v (d v - 1)) w
        ((Function.update d v (d v - 1)) w + 1) x
      = d x - (if x = v then 1 else 0) + (if x = w then 1 else 0) := by
  by_cases hxw : x = w
  · subst hxw
    rw [Function.update_same]
    by_cases hxv : x = v
    · subst hxv; simp
    · rw [Function.update_noteq hxv]
      simp [hxv]
  · rw [Function.update_noteq hxw]
    by_cases hxv : x = v
    · subst hxv; simp [hxw]
    · rw [Function.update_noteq hxv]
      simp [hxv, hxw]

theorem fireOne_foldl_apply (v : ℕ) (L : List ℕ) (d : ℕ → ℤ) (x : ℕ) :
    (L.foldl
      (fun e w =>
        Function.update (Function.update e v (e v - 1)) w
          ((Function.update e v (e v - 1)) w + 1)) d) x
      = d x - (if x = v then (L.length : ℤ) else 0) + (L.count x : ℤ) := by
  induction L generalizing d with
  | nil => simp
  | cons a t ih =>
    rw [List.foldl_cons, ih]
    rw [fireStep_apply]
    by_cases hxv : x = v
    · subst hxv
      by_cases hxa : x = a
      · subst hxa
        simp only [if_pos rfl, List.count_cons_self, List.length_cons]
        push_cast
        ring
      · simp only [if_pos rfl, if_neg hxa, List.count_cons_of_ne hxa, List.length_cons]
        push_cast
        ring
    · by_cases hxa : x = a
      · subst hxa
        simp only [if_neg hxv, List.count_cons_self]
        push_cast
        ring
      · simp only [if_neg hxv, if_neg hxa, List.count_cons_of_ne hxa]
        push_cast
        ring

theorem fireOne_apply (G : MyGraph) (d : ℕ → ℤ) (v x : ℕ) :
    fireOne G d v x
      = d x - (if x = v then (degr G v : ℤ) else 0) + (mult G v x : ℤ) := by
  unfold fireOne degr mult
  exact fireOne_foldl_apply v (nbr G v) d x

theorem fireList_apply (G : MyGraph) (d : ℕ → ℤ) (F : List ℕ) (x : ℕ) :
    fireList G d F x
      = d x - (F.count x : ℤ) * (degr G x : ℤ) + (edgesL G F x : ℤ) := by
  induction F generalizing d with
  | nil => simp [fireList, edgesL]
  | cons v t ih =>
    show fireList G (fireOne G d v) t x = _
    rw [ih, fireOne_apply]
    unfold edgesL
    by_cases hxv : x = v
    · subst hxv
      simp only [if_pos rfl, List.count_cons_self, List.map_cons, List.sum_cons]
      push_cast
      ring
    · simp only [if_neg hxv, List.count_cons_of_ne hxv, List.map_cons, List.sum_cons]
      push_cast
      ring

/-- The Laplacian action of a firing script `s`: `lap G s x` is the net
number of chips leaving `x` when each vertex `v` fires `s v` times. -/
def lap (G : MyGraph) (s : ℕ → ℤ) (x : ℕ) : ℤ :=
  s x * (degr G x : ℤ) - ∑ v ∈ Finset.range (gn G), s v * (mult G v x : ℤ)

/-- `D` and `E` are linearly equivalent: they differ by firing an integer
script supported on the vertices of `G`. -/
def LinEquiv (G : MyGraph) (D E : ℕ → ℤ) : Prop :=
  ∃ s : ℕ → ℤ, (∀ x, gn G ≤ x → s x = 0) ∧ ∀ x, E x = D x - lap G s x

theorem lap_zero (G : MyGraph) : ∀ x, lap G (fun _ => 0) x = 0 := by
  intro x; simp [lap]

theorem lap_add (G : MyGraph) (s t : ℕ → ℤ) :
    ∀ x, lap G (fun v => s v + t v) x = lap G s x + lap G t x := by
  intro x
  unfold lap
  have h : ∑ v ∈ Finset.range (gn G), (s v + t v) * (mult G v x : ℤ)
      = ∑ v ∈ Finset.range (gn G), s v * (mult G v x : ℤ)
        + ∑ v ∈ Finset.range (gn G), t v * (mult G v x : ℤ) := by
    rw [← Finset.sum_add_distrib]
    exact Finset.sum_congr rfl fun v _ => add_mul _ _ _
  show (s x + t x) * (degr G x : ℤ)
      - ∑ v ∈ Finset.range (gn G), (s v + t v) * (mult G v x : ℤ) = _
  rw [h]
  ring

theorem lap_neg (G : MyGraph) (s : ℕ → ℤ) :
    ∀ x, lap G (fun v => -(s v)) x = -(lap G s x) := by
  intro x
  unfold lap
  have h : ∑ v ∈ Finset.range (gn G), -(s v) * (mult G v x : ℤ)
      = -∑ v ∈ Finset.range (gn G), s v * (mult G v x : ℤ) := by
    rw [← Finset.sum_neg_distrib]
    exact Finset.sum_congr rfl fun v _ => neg_mul _ _
  show -(s x) * (degr G x : ℤ)
      - ∑ v ∈ Finset.range (gn G), -(s v) * (mult G v x : ℤ) = _
  rw [h]
  ring

theorem linEquiv_refl (G : MyGraph) (D : ℕ → ℤ) : LinEquiv G D D :=
  ⟨fun _ => 0, fun _ _ => rfl, fun x => by rw [lap_zero]; ring⟩

theorem linEquiv_symm (G : MyGraph) {D E : ℕ → ℤ} (h : LinEquiv G D E) :
    LinEquiv G E D := by
  obtain ⟨s, hs0, hs⟩ := h
  refine ⟨fun v => -(s v), fun x hx => by simp [hs0 x hx], fun x => ?_⟩
  rw [lap_neg, hs x]
  ring

theorem linEquiv_trans (G : MyGraph) {D E F : ℕ → ℤ}
    (h1 : LinEquiv G D E) (h2 : LinEquiv G E F) : LinEquiv G D F := by
  obtain ⟨s, hs0, hs⟩ := h1
  obtain ⟨t, ht0, ht⟩ := h2
  refine ⟨fun v => s v + t v, fun x hx => by simp [hs0 x hx, ht0 x hx], fun x => ?_⟩
  rw [lap_add, ht x, hs x]
  ring

/-- An effective divisor (`assert(divisor[i] >= 0)` in the source). -/
def EffOn (G : MyGraph) (D : ℕ → ℤ) : Prop := ∀ x < gn G, 0 ≤ D x

/-- Degree of a divisor: total number of chips on the vertices of `G`. -/
def degSum (G : MyGraph) (D : ℕ → ℤ) : ℤ := ∑ x ∈ Finset.range (gn G), D x

theorem sum_mult_range (G : MyGraph) (hG : ValidGraph G) (v : ℕ) :
    ∑ x ∈ Finset.range (gn G), mult G v x = degr G v := by
  calc ∑ x ∈ Finset.range (gn G), mult G v x
      = ∑ x ∈ Finset.range (gn G), mult G x v :=
        Finset.sum_congr rfl fun x _ => hG.2 v x
    _ = degr G v := edgesTo_range G hG v

theorem lap_sum (G : MyGraph) (hG : ValidGraph G) (s : ℕ → ℤ) :
    ∑ x ∈ Finset.range (gn G), lap G s x = 0 := by
  unfold lap
  rw [Finset.sum_sub_distrib]
  have h2 : ∑ x ∈ Finset.range (gn G), ∑ v ∈ Finset.range (gn G), s v * (mult G v x : ℤ)
      = ∑ v ∈ Finset.range (gn G), s v * (degr G v : ℤ) := by
    rw [Finset.sum_comm]
    refine Finset.sum_congr rfl fun v _ => ?_
    rw [← Finset.mul_sum]
    congr 1
    rw [← Nat.cast_sum]
    exact_mod_cast congrArg (Nat.cast : ℕ → ℤ) (sum_mult_range G hG v)
  rw [h2]
  ring

theorem linEquiv_degSum (G : MyGraph) (hG : ValidGraph G) {D E : ℕ → ℤ}
    (h : LinEquiv G D E) : degSum G E = degSum G D := by
  obtain ⟨s, _, hs⟩ := h
  unfold degSum
  rw [Finset.sum_congr rfl fun x _ => hs x, Finset.sum_sub_distrib, lap_sum G hG]
  ring

theorem lap_out_of_range (G : MyGraph) (hG : ValidGraph G) (s : ℕ → ℤ)
    (hs0 : ∀ x, gn G ≤ x → s x = 0) (x : ℕ) (hx : gn G ≤ x) : lap G s x = 0 := by
  unfold lap
  rw [hs0 x hx]
  have h : ∀ v ∈ Finset.range (gn G), s v * (mult G v x : ℤ) = 0 := by
    intro v _
    rw [mult_out_of_range G hG v x hx]
    ring
  rw [Finset.sum_congr rfl h]
  simp

theorem linEquiv_out_of_range (G : MyGraph) (hG : ValidGraph G) {D E : ℕ → ℤ}
    (h : LinEquiv G D E) (x : ℕ) (hx : gn G ≤ x) : E x = D x := by
  obtain ⟨s, hs0, hs⟩ := h
  rw [hs x, lap_out_of_range G hG s hs0 x hx]
  ring

theorem edgesL_eq_sum_count (G : MyGraph) (F : List ℕ) (x : ℕ) :
    edgesL G F x = ∑ v ∈ F.toFinset, F.count v * mult G v x := by
  unfold edgesL
  rw [Finset.sum_list_map_count]
  exact Finset.sum_congr rfl fun v _ => by simp [smul_eq_mul]

theorem edgesL_count (G : MyGraph) (F : List ℕ) (x : ℕ) (hF : ∀ v ∈ F, v < gn G) :
    edgesL G F x = ∑ v ∈ Finset.range (gn G), F.count v * mult G v x := by
  rw [edgesL_eq_sum_count]
  refine Finset.sum_subset ?_ ?_
  · intro v hv
    rw [List.mem_toFinset] at hv
    exact Finset.mem_range.mpr (hF v hv)
  · intro v _ hv
    rw [List.mem_toFinset] at hv
    rw [List.count_eq_zero_of_not_mem hv]
    ring

/-- Firing a list of vertices is the Laplacian action of its count
function. -/
theorem fireList_eq_lap (G : MyGraph) (d : ℕ → ℤ) (F : List ℕ)
    (hF : ∀ v ∈ F, v < gn G) :
    ∀ x, fireList G d F x = d x - lap G (fun v => (F.count v : ℤ)) x := by
  intro x
  rw [fireList_apply]
  show _ = d x - ((F.count x : ℤ) * (degr G x : ℤ)
    - ∑ v ∈ Finset.range (gn G), (F.count v : ℤ) * (mult G v x : ℤ))
  have h : (edgesL G F x : ℤ) = ∑ v ∈ Finset.range (gn G), (F.count v : ℤ) * (mult G v x : ℤ) := by
    rw [edgesL_count G F x hF]
    push_cast
    rfl
  rw [h]
  ring

theorem fireList_linEquiv (G : MyGraph) (d : ℕ → ℤ) (F : List ℕ)
    (hF : ∀ v ∈ F, v < gn G) : LinEquiv G d (fireList G d F) := by
  refine ⟨fun v => (F.count v : ℤ), ?_, fireList_eq_lap G d F hF⟩
  intro x hx
  have hnm : x ∉ F := fun hc => absurd (hF x hc) (not_lt.mpr hx)
  show ((F.count x : ℤ)) = 0
  rw [List.count_eq_zero_of_not_mem hnm]
  rfl

theorem fireList_out_of_range (G : MyGraph) (hG : ValidGraph G) (d : ℕ → ℤ)
    (F : List ℕ) (hF : ∀ v ∈ F, v < gn G) (x : ℕ) (hx : gn G ≤ x) :
    fireList G d F x = d x := by
  rw [fireList_eq_lap G d F hF x]
  have hs0 : ∀ y, gn G ≤ y → ((F.count y : ℤ)) = 0 := by
    intro y hy
    have hnm : y ∉ F := fun hc => absurd (hF y hc) (not_lt.mpr hy)
    rw [List.count_eq_zero_of_not_mem hnm]
    rfl
  rw [lap_out_of_range G hG _ hs0 x hx]
  ring

theorem edgesL_nodup (G : MyGraph) (F : List ℕ) (x : ℕ) (h : F.Nodup) :
    edgesL G F x = edgesTo G F.toFinset x := by
  rw [edgesL_eq_sum_count]
  refine Finset.sum_congr rfl fun v hv => ?_
  rw [List.mem_toFinset] at hv
  rw [List.count_eq_one_of_mem h hv, one_mul]

theorem burnFS_nodup (G : MyGraph) (D : ℕ → ℤ) (start : ℕ) :
    (burnFS G D start).Nodup :=
  (List.nodup_range _).filter _

theorem burnFS_mem_lt (G : MyGraph) (D : ℕ → ℤ) (start : ℕ) :
    ∀ v ∈ burnFS G D start, v < gn G :=
  fun v hv => ((mem_burnFS G D start v).mp hv).1

theorem burnFS_toFinset (G : MyGraph) (D : ℕ → ℤ) (start : ℕ) :
    (burnFS G D start).toFinset
      = (Finset.range (gn G)).filter (fun v => v ∉ burnPushed G D start) := by
  ext v
  rw [List.mem_toFinset, mem_burnFS, Finset.mem_filter, Finset.mem_range]

/-- Key bound for an unburnt vertex `w`: its chip count covers all its edges
into the burnt region, so firing the whole unburnt set leaves it
non-negative. -/
theorem burn_unburnt_bound (G : MyGraph) (hG : ValidGraph G) (D : ℕ → ℤ)
    (start : ℕ) (hD : ∀ v < gn G, v ≠ start → 0 ≤ D v)
    {w : ℕ} (hw : w < gn G) (hwR : w ∉ burnPushed G D start) :
    0 ≤ D w - (degr G w : ℤ)
      + (edgesTo G ((Finset.range (gn G)).filter
          (fun v => v ∉ burnPushed G D start)) w : ℤ) := by
  have hsat := (burnPushed_spec G D start hG hD).2.1 w hw hwR
  have hsplit : edgesTo G (Finset.range (gn G)) w
      = edgesTo G ((Finset.range (gn G)).filter (fun v => v ∉ burnPushed G D start)) w
        + edgesTo G ((Finset.range (gn G)).filter (fun v => ¬ v ∉ burnPushed G D start)) w := by
    unfold edgesTo
    exact (Finset.sum_filter_add_sum_filter_not _ _ _).symm
  have hmono : edgesTo G ((Finset.range (gn G)).filter
      (fun v => ¬ v ∉ burnPushed G D start)) w ≤ edgesTo G (burnPushed G D start) w := by
    refine edgesTo_mono G ?_ w
    intro v hv
    rw [Finset.mem_filter] at hv
    exact not_not.mp hv.2
  have hdeg : edgesTo G (Finset.range (gn G)) w = degr G w := edgesTo_range G hG w
  omega

/-- Firing the complement of the burnt set preserves effectiveness. -/
theorem fire_burnFS_eff (G : MyGraph) (hG : ValidGraph G) (D : ℕ → ℤ)
    (start : ℕ) (hs : start < gn G) (hD : EffOn G D) :
    EffOn G (fireList G D (burnFS G D start)) := by
  intro x hx
  rw [fireList_apply]
  rw [edgesL_nodup G _ x (burnFS_nodup G D start), burnFS_toFinset]
  by_cases hxF : x ∈ burnFS G D start
  · have hcnt : (burnFS G D start).count x = 1 :=
      List.count_eq_one_of_mem (burnFS_nodup G D start) hxF
    rw [hcnt]
    have hxR : x ∉ burnPushed G D start := ((mem_burnFS G D start x).mp hxF).2
    have := burn_unburnt_bound G hG D start
      (fun v hv _ => hD v hv) hx hxR
    push_cast
    omega
  · have hcnt : (burnFS G D start).count x = 0 :=
      List.count_eq_zero_of_not_mem hxF
    rw [hcnt]
    have h0 : (0 : ℤ) ≤ D x := hD x hx
    have h1 : (0 : ℤ) ≤ (edgesTo G ((Finset.range (gn G)).filter
        (fun v => v ∉ burnPushed G D start)) x : ℤ) := Int.natCast_nonneg _
    push_cast
    omega

/-! ## v-reduced divisors and Dhar's theorem -/

/-- The vertex set `F` can be fired from `D` legally: every vertex of `F`
keeps a non-negative chip count after the simultaneous firing (which changes
`w ∈ F` by `-deg w + edges(F, w)`). -/
def LegalFire (G : MyGraph) (D : ℕ → ℤ) (F : Finset ℕ) : Prop :=
  ∀ w ∈ F, 0 ≤ D w - (degr G w : ℤ) + (edgesTo G F w : ℤ)

/-- `D` is v-reduced at `v`: no non-empty firing set avoiding `v` can be
fired legally (the spec's definition of a v-reduced divisor). -/
def VReduced (G : MyGraph) (D : ℕ → ℤ) (v : ℕ) : Prop :=
  ¬ ∃ F : Finset ℕ, F.Nonempty ∧ F ⊆ Finset.range (gn G) ∧ v ∉ F ∧ LegalFire G D F

/-- A legally fireable set avoiding the start vertex is disjoint from the
burnt region. -/
theorem Burns_disjoint_legal (G : MyGraph) (hG : ValidGraph G) (D : ℕ → ℤ)
    (start : ℕ) (hs : start < gn G) (F : Finset ℕ)
    (hF : F ⊆ Finset.range (gn G)) (hsF : start ∉ F) (hleg : LegalFire G D F) :
    ∀ v, Burns G D start v → v ∉ F := by
  intro v hv
  induction hv with
  | init => exact hsF
  | step v S hvn hS hv ih =>
    intro hvF
    have hlegv := hleg v hvF
    have hsplit : edgesTo G (Finset.range (gn G)) v
        = edgesTo G F v + edgesTo G (Finset.range (gn G) \ F) v := by
      unfold edgesTo
      exact (Finset.sum_sdiff hF).symm.trans (by ring)
    have hdeg : edgesTo G (Finset.range (gn G)) v = degr G v := edgesTo_range G hG v
    have hSsub : S ⊆ Finset.range (gn G) \ F := by
      intro w hw
      rcases Burns_lt G D start w (hS w hw) with h | h
      · subst h
        exact Finset.mem_sdiff.mpr ⟨Finset.mem_range.mpr hs, hsF⟩
      · exact Finset.mem_sdiff.mpr ⟨Finset.mem_range.mpr h, ih w hw⟩
    have hmono : edgesTo G S v ≤ edgesTo G (Finset.range (gn G) \ F) v :=
      edgesTo_mono G hSsub v
    omega

theorem burnFS_nil_iff (G : MyGraph) (D : ℕ → ℤ) (start : ℕ) :
    burnFS G D start = [] ↔ ∀ v < gn G, v ∈ burnPushed G D start := by
  unfold burnFS
  rw [List.filter_eq_nil]
  constructor
  · intro h v hv
    have := h v (List.mem_range.mpr hv)
    simpa using this
  · intro h v hv
    rw [List.mem_range] at hv
    simpa using h v hv

/-- **Dhar's theorem** as used by `is_reduced`: the burning run from `start`
burns everything iff `D` is v-reduced at `start`. -/
theorem dhar_reduced_iff (G : MyGraph) (hG : ValidGraph G) (D : ℕ → ℤ)
    (start : ℕ) (hs : start < gn G)
    (hD : ∀ v < gn G, v ≠ start → 0 ≤ D v) :
    burnFS G D start = [] ↔ VReduced G D start := by
  constructor
  · intro hnil
    rintro ⟨F, hne, hsub, hsF, hleg⟩
    obtain ⟨v, hvF⟩ := hne
    have hvlt : v < gn G := Finset.mem_range.mp (hsub hvF)
    have hvB : Burns G D start v :=
      (mem_burnPushed_iff G D start hG hD v).mp
        ((burnFS_nil_iff G D start).mp hnil v hvlt)
    exact Burns_disjoint_legal G hG D start hs F hsub hsF hleg v hvB hvF
  · intro hred
    by_contra hne
    apply hred
    refine ⟨(burnFS G D start).toFinset, ?_, ?_, ?_, ?_⟩
    · rw [List.toFinset_nonempty_iff]
      exact hne
    · intro v hv
      rw [List.mem_toFinset] at hv
      exact Finset.mem_range.mpr (burnFS_mem_lt G D start v hv)
    · rw [List.mem_toFinset]
      intro hcon
      have := ((mem_burnFS G D start start).mp hcon).2
      exact this (burnPushed_spec G D start hG hD).2.2
    · intro w hw
      rw [List.mem_toFinset] at hw
      have hwlt : w < gn G := burnFS_mem_lt G D start w hw
      have hwR : w ∉ burnPushed G D start := ((mem_burnFS G D start w).mp hw).2
      have := burn_unburnt_bound G hG D start hD hwlt hwR
      rw [burnFS_toFinset]
      exact this

/-! ## `reduce` of divisors.h

`reduce` copies the divisor into a working buffer, then repeatedly burns
from `target`, and, while the firing set is non-empty, fires every vertex of
the firing set (its loop body interleaves `script[v]++` with the firing of
`v`; since the script array and the working divisor are distinct, this is
the componentwise pair of `scrAdd` and `fireList`).  The loop gets a fuel
argument; the claims about termination are settled separately. -/

def scrAdd (sc : ℕ → ℤ) (F : List ℕ) : ℕ → ℤ :=
  F.foldl (fun s v => Function.update s v (s v + 1)) sc

theorem scrAdd_apply (sc : ℕ → ℤ) (F : List ℕ) :
    ∀ x, scrAdd sc F x = sc x + (F.count x : ℤ) := by
  induction F generalizing sc with
  | nil => intro x; simp [scrAdd]
  | cons a t ih =>
    intro x
    show scrAdd (Function.update sc a (sc a + 1)) t x = _
    rw [ih]
    by_cases hxa : x = a
    · subst hxa
      rw [Function.update_same, List.count_cons_self]
      push_cast
      ring
    · rw [Function.update_noteq hxa, List.count_cons_of_ne hxa]

def reduceLoop (G : MyGraph) (target : ℕ) : ℕ → (ℕ → ℤ) → (ℕ → ℤ) → Option ((ℕ → ℤ) × (ℕ → ℤ))
  | 0, _, _ => none
  | fuel + 1, D, sc =>
    if burnFS G D target = [] then some (D, sc)
    else reduceLoop G target fuel (fireList G D (burnFS G D target))
      (scrAdd sc (burnFS G D target))

/-- `reduce(G, divisor, target, script)`: the returned pair is the final
`__tmp_divisor` and the final `script` (initialised to zero). -/
def reduceRun (G : MyGraph) (D : ℕ → ℤ) (target : ℕ) (fuel : ℕ) :
    Option ((ℕ → ℤ) × (ℕ → ℤ)) :=
  reduceLoop G target fuel D (fun _ => 0)

theorem reduceLoop_exit (G : MyGraph) (target : ℕ) :
    ∀ fuel D sc D' sc', reduceLoop G target fuel D sc = some (D', sc') →
      burnFS G D' target = [] := by
  intro fuel
  induction fuel with
  | zero => intro D sc D' sc' h; simp [reduceLoop] at h
  | succ f ih =>
    intro D sc D' sc' h
    simp only [reduceLoop] at h
    by_cases hfs : burnFS G D target = []
    · rw [if_pos hfs] at h
      obtain ⟨h1, _⟩ := Prod.mk.injEq .. ▸ Option.some_inj.mp h
      exact h1 ▸ hfs
    · rw [if_neg hfs] at h
      exact ih _ _ _ _ h

theorem target_not_mem_burnFS (G : MyGraph) (hG : ValidGraph G) (D : ℕ → ℤ)
    (target : ℕ) (hD : ∀ v < gn G, v ≠ target → 0 ≤ D v) :
    target ∉ burnFS G D target := by
  intro hc
  exact ((mem_burnFS G D target target).mp hc).2 (burnPushed_spec G D target hG hD).2.2

theorem reduceLoop_spec (G : MyGraph) (hG : ValidGraph G) (target : ℕ)
    (htlt : target < gn G) :
    ∀ fuel D sc D' sc', EffOn G D →
      reduceLoop G target fuel D sc = some (D', sc') →
      burnFS G D' target = [] ∧ EffOn G D' ∧
        (∀ x, D' x = D x - lap G (fun v => sc' v - sc v) x) ∧
        (∀ x, sc x ≤ sc' x) ∧ sc' target = sc target ∧
        (∀ x, gn G ≤ x → sc' x = sc x ∧ D' x = D x) := by
  intro fuel
  induction fuel with
  | zero => intro D sc D' sc' _ h; simp [reduceLoop] at h
  | succ f ih =>
    intro D sc D' sc' hD h
    simp only [reduceLoop] at h
    by_cases hfs : burnFS G D target = []
    · rw [if_pos hfs] at h
      have h1 : D = D' ∧ sc = sc' := by
        have := Option.some_inj.mp h
        exact ⟨congrArg Prod.fst this, congrArg Prod.snd this⟩
      obtain ⟨rfl, rfl⟩ := h1
      refine ⟨hfs, hD, ?_, fun x => le_refl _, rfl, fun x _ => ⟨rfl, rfl⟩⟩
      intro x
      have hz : (fun v => sc v - sc v) = fun _ => (0 : ℤ) := funext fun v => sub_self _
      rw [hz, lap_zero]
      ring
    · rw [if_neg hfs] at h
      have hFlt : ∀ v ∈ burnFS G D target, v < gn G := burnFS_mem_lt G D target
      have heff1 : EffOn G (fireList G D (burnFS G D target)) :=
        fire_burnFS_eff G hG D target htlt hD
      obtain ⟨ha, hb, hc, hd, he, hf⟩ := ih _ _ _ _ heff1 h
      refine ⟨ha, hb, ?_, ?_, ?_, ?_⟩
      · intro x
        have hcomp : (fun v => sc' v - sc v)
            = fun v => (sc' v - scrAdd sc (burnFS G D target) v)
              + ((burnFS G D target).count v : ℤ) := by
          funext v
          rw [scrAdd_apply]
          ring
        rw [hcomp, lap_add, hc x, fireList_eq_lap G D _ hFlt x]
        ring
      · intro x
        have := hd x
        rw [scrAdd_apply] at this
        have hcnt : (0 : ℤ) ≤ ((burnFS G D target).count x : ℤ) := Int.natCast_nonneg _
        omega
      · rw [he, scrAdd_apply]
        have : target ∉ burnFS G D target :=
          target_not_mem_burnFS G hG D target (fun v hv _ => hD v hv)
        rw [List.count_eq_zero_of_not_mem this]
        ring
      · intro x hx
        obtain ⟨hf1, hf2⟩ := hf x hx
        constructor
        · rw [hf1, scrAdd_apply]
          have : x ∉ burnFS G D target := fun hc => absurd (hFlt x hc) (not_lt.mpr hx)
          rw [List.count_eq_zero_of_not_mem this]
          ring
        · rw [hf2, fireList_out_of_range G hG D _ hFlt x hx]

/-- **C4.** Whenever `reduce(G, D, target)` terminates, the divisor it
returns is v-reduced at `target` and linearly equivalent to `D` (explicitly:
it is `D` acted on by the script), and the script is a non-negative vector
with `script[target] = 0`. -/
theorem reduce_correct (G : MyGraph) (hG : ValidGraph G) (target : ℕ)
    (htlt : target < gn G) (D : ℕ → ℤ) (hD : EffOn G D) (fuel : ℕ)
    (D' sc' : ℕ → ℤ) (hrun : reduceRun G D target fuel = some (D', sc')) :
    VReduced G D' target ∧ LinEquiv G D D' ∧
      (∀ x, D' x = D x - lap G sc' x) ∧ (∀ x, 0 ≤ sc' x) ∧ sc' target = 0 := by
  obtain ⟨ha, hb, hc, hd, he, hf⟩ := reduceLoop_spec G hG target htlt fuel D
    (fun _ => 0) D' sc' hD hrun
  have hsc : ∀ x, D' x = D x - lap G sc' x := by
    intro x
    have hz : (fun v => sc' v - (fun _ => (0:ℤ)) v) = sc' := funext fun v => sub_zero _
    have := hc x
    rwa [hz] at this
  refine ⟨?_, ?_, hsc, fun x => hd x, he⟩
  · rw [← dhar_reduced_iff G hG D' target htlt (fun v hv _ => hb v hv)]
    exact ha
  · exact ⟨sc', fun x hx => (hf x hx).1, hsc⟩

/-- The path `P_2` (a single edge). -/
def gP2 : MyGraph := ⟨[[1], [0]]⟩

/-- Witness for C4: reducing the divisor `[0,1]` on `P_2` to vertex `0`
terminates in two rounds; the theorem's conclusions hold for its output. -/
theorem reduce_correct_witness :
    ∃ D' sc', reduceRun gP2 (fun x => if x = 1 then 1 else 0) 0 2 = some (D', sc') ∧
      (VReduced gP2 D' 0 ∧ LinEquiv gP2 (fun x => if x = 1 then 1 else 0) D' ∧
        (∀ x, D' x = (if x = 1 then 1 else 0) - lap gP2 sc' x) ∧
        (∀ x, 0 ≤ sc' x) ∧ sc' 0 = 0) := by
  refine ⟨_, _, rfl, ?_⟩
  exact reduce_correct gP2 ((validB_iff gP2).mpr (by decide)) 0 (by decide)
    (fun x => if x = 1 then 1 else 0) (by intro x _; simp only []; split <;> norm_num) 2 _ _ rfl

/-- **C7.** Reduction is idempotent: feeding the output of `reduce` back into
`reduce` with the same target returns that output unchanged (with the zero
script). -/
theorem reduce_idempotent (G : MyGraph) (hG : ValidGraph G) (D : ℕ → ℤ)
    (hD : EffOn G D) (target : ℕ) (htlt : target < gn G) (fuel : ℕ)
    (D' sc' : ℕ → ℤ) (hrun : reduceRun G D target fuel = some (D', sc')) :
    ∀ fuel', reduceRun G D' target (fuel' + 1) = some (D', fun _ => 0) := by
  intro fuel'
  have hfs := reduceLoop_exit G target fuel D (fun _ => 0) D' sc' hrun
  show reduceLoop G target (fuel' + 1) D' (fun _ => 0) = some (D', fun _ => 0)
  simp only [reduceLoop]
  rw [if_pos hfs]

/-- Witness for C7, on the same run as the C4 witness. -/
theorem reduce_idempotent_witness :
    ∃ D' sc', reduceRun gP2 (fun x => if x = 1 then 1 else 0) 0 2 = some (D', sc') ∧
      reduceRun gP2 D' 0 1 = some (D', fun _ => 0) := by
  refine ⟨_, _, rfl, ?_⟩
  exact reduce_idempotent gP2 ((validB_iff gP2).mpr (by decide))
    (fun x => if x = 1 then 1 else 0) (by intro x _; simp only []; split <;> norm_num) 0
    (by decide) 2 _ _ rfl 0

/-- The valid but disconnected graph with two vertices and no edges. -/
def gD2 : MyGraph := ⟨[[], []]⟩

/-- **Counterexample to C5 as stated.** On the valid (but disconnected)
two-vertex edgeless graph with the zero divisor and target `0`, the
burn-and-fire loop of `reduce` never terminates: vertex `1` is never burnt,
and firing it changes nothing. -/
theorem reduce_not_terminating :
    ¬ ∃ fuel p, reduceRun gD2 (fun _ => 0) 0 fuel = some p := by
  have key : ∀ fuel sc, reduceLoop gD2 0 fuel (fun _ => 0) sc = none := by
    intro fuel
    induction fuel with
    | zero => intro sc; rfl
    | succ f ih =>
      intro sc
      have hfs : burnFS gD2 (fun _ => 0) 0 = [1] := by decide
      have hfire : fireList gD2 (fun _ => 0) [1] = (fun _ => 0) := rfl
      show reduceLoop gD2 0 (f + 1) (fun _ => 0) sc = none
      simp only [reduceLoop, hfs]
      rw [if_neg (by simp), hfire]
      exact ih _
  rintro ⟨fuel, p, hp⟩
  have := key fuel (fun _ => 0)
  rw [reduceRun] at hp
  rw [this] at hp
  exact Option.noConfusion hp

/-! ## Reachability and connected components -/

/-- Walk-reachability along the adjacency lists. -/
inductive Reach (G : MyGraph) : ℕ → ℕ → Prop
  | refl (v : ℕ) : Reach G v v
  | tail (u v w : ℕ) : Reach G u v → w ∈ nbr G v → Reach G u w

theorem mem_nbr_iff_mult (G : MyGraph) (i j : ℕ) : j ∈ nbr G i ↔ 0 < mult G i j := by
  unfold mult
  exact ⟨fun h => List.count_pos_iff_mem.mpr h, fun h => List.count_pos_iff_mem.mp h⟩

theorem nbr_symm (G : MyGraph) (hG : ValidGraph G) {i j : ℕ} (h : j ∈ nbr G i) :
    i ∈ nbr G j := by
  rw [mem_nbr_iff_mult] at h ⊢
  rw [← hG.2 i j]
  exact h

theorem reach_trans (G : MyGraph) {a b c : ℕ} (h1 : Reach G a b) (h2 : Reach G b c) :
    Reach G a c := by
  induction h2 with
  | refl => exact h1
  | tail v w _ hmem ih => exact Reach.tail a v w ih hmem

theorem reach_symm (G : MyGraph) (hG : ValidGraph G) {a b : ℕ} (h : Reach G a b) :
    Reach G b a := by
  induction h with
  | refl => exact Reach.refl a
  | tail v w _ hmem ih =>
    refine reach_trans G ?_ ih
    exact Reach.tail w w v (Reach.refl w) (nbr_symm G hG hmem)

/-- The connectivity predicate used by the claims about connected graphs. -/
def Connected (G : MyGraph) : Prop := ∀ v < gn G, Reach G 0 v

theorem connected_reach (G : MyGraph) (hG : ValidGraph G) (hc : Connected G)
    {u v : ℕ} (hu : u < gn G) (hv : v < gn G) : Reach G u v :=
  reach_trans G (reach_symm G hG (hc u hu)) (hc v hv)

/-- The connected component of `u`, computed by running the burning
algorithm with the zero divisor (a vertex burns as soon as any neighbour is
burnt). -/
def compFS (G : MyGraph) (u : ℕ) : Finset ℕ := burnPushed G (fun _ => 0) u

theorem Burns_to_reach (G : MyGraph) (hG : ValidGraph G) (D : ℕ → ℤ) (u : ℕ)
    (hD : ∀ v < gn G, v ≠ u → 0 ≤ D v) :
    ∀ v, Burns G D u v → Reach G u v := by
  intro v hv
  induction hv with
  | init => exact Reach.refl u
  | step v S hvn hS hv ih =>
    by_cases hvu : v = u
    · cases hvu; exact Reach.refl _
    · have hpos : 0 < edgesTo G S v := by
        have h0 : 0 ≤ D v := hD v hvn hvu
        by_contra hz
        push_neg at hz
        have hzero : edgesTo G S v = 0 := Nat.le_zero.mp hz
        rw [hzero] at hv
        simp at hv
        omega
      have hex : ∃ w ∈ S, 0 < mult G w v := by
        by_contra hall
        push_neg at hall
        have : edgesTo G S v = 0 := by
          unfold edgesTo
          exact Finset.sum_eq_zero fun w hw => Nat.le_zero.mp (hall w hw)
        omega
      obtain ⟨w, hwS, hwm⟩ := hex
      exact Reach.tail u w v (ih w hwS) ((mem_nbr_iff_mult G w v).mpr hwm)

theorem reach_to_Burns_zero (G : MyGraph) (hG : ValidGraph G) (u : ℕ) :
    ∀ v, Reach G u v → Burns G (fun _ => (0 : ℤ)) u v := by
  intro v hv
  induction hv with
  | refl => exact Burns.init
  | tail v w _ hmem ih =>
    refine Burns.step w {v} (hG.1 v w hmem).1 ?_ ?_
    · intro x hx
      rw [Finset.mem_singleton] at hx
      subst hx
      exact ih
    · rw [mem_nbr_iff_mult] at hmem
      have : 0 < edgesTo G {v} w := by
        unfold edgesTo
        rw [Finset.sum_singleton]
        exact hmem
      exact_mod_cast this

theorem mem_compFS (G : MyGraph) (hG : ValidGraph G) (u : ℕ) (hu : u < gn G) :
    ∀ v, v ∈ compFS G u ↔ Reach G u v := by
  intro v
  unfold compFS
  rw [mem_burnPushed_iff G _ u hG (fun _ _ _ => le_refl 0)]
  exact ⟨Burns_to_reach G hG _ u (fun _ _ _ => le_refl 0) v,
    reach_to_Burns_zero G hG u v⟩

theorem compFS_subset_range (G : MyGraph) (hG : ValidGraph G) (u : ℕ) (hu : u < gn G) :
    compFS G u ⊆ Finset.range (gn G) := by
  intro v hv
  have := (burnPushed_spec G (fun _ => 0) u hG (fun _ _ _ => le_refl 0)).1 v hv
  rcases Burns_lt G _ u v this with h | h
  · subst h; exact Finset.mem_range.mpr hu
  · exact Finset.mem_range.mpr h

theorem compFS_closed (G : MyGraph) (hG : ValidGraph G) (u : ℕ) (hu : u < gn G) :
    ∀ v ∈ compFS G u, ∀ w, 0 < mult G v w → w ∈ compFS G u := by
  intro v hv w hw
  rw [mem_compFS G hG u hu] at hv ⊢
  exact Reach.tail u v w hv ((mem_nbr_iff_mult G v w).mpr hw)

theorem compFS_self (G : MyGraph) (hG : ValidGraph G) (u : ℕ) (hu : u < gn G) :
    u ∈ compFS G u :=
  (mem_compFS G hG u hu u).mpr (Reach.refl u)

theorem reach_subset_closed (G : MyGraph) {C : Finset ℕ}
    (hCc : ∀ v ∈ C, ∀ w, 0 < mult G v w → w ∈ C) {u : ℕ} (huC : u ∈ C) :
    ∀ v, Reach G u v → v ∈ C := by
  intro v hv
  induction hv with
  | refl => exact huC
  | tail v w _ hmem ih =>
    exact hCc v ih w ((mem_nbr_iff_mult G v w).mp hmem)

theorem burnPushed_subset_closed (G : MyGraph) (hG : ValidGraph G) (u : ℕ)
    {C : Finset ℕ} (hCc : ∀ v ∈ C, ∀ w, 0 < mult G v w → w ∈ C) (huC : u ∈ C)
    (D : ℕ → ℤ) (hD : ∀ v < gn G, v ≠ u → 0 ≤ D v) :
    burnPushed G D u ⊆ C := by
  intro v hv
  have hB := (burnPushed_spec G D u hG hD).1 v hv
  exact reach_subset_closed G hCc huC v (Burns_to_reach G hG D u hD v hB)

/-! ## Termination of the burn-and-fire iteration

`reduce` (and the inner loop of `has_positive_rank`) repeatedly applies one
round of "burn from `u`, then fire the whole unburnt set": `dharStep`.
Termination (relative to a closed, connected-from-`u` vertex set `C`) is
proved by a pigeonhole argument on the finitely many effective chip
configurations on `C`, using that a non-trivial cyclic firing script would
lie in the kernel of the Laplacian. -/

def dharStep (G : MyGraph) (u : ℕ) (D : ℕ → ℤ) : ℕ → ℤ :=
  fireList G D (burnFS G D u)

theorem dharIter_eff (G : MyGraph) (hG : ValidGraph G) (u : ℕ) (hu : u < gn G)
    (D : ℕ → ℤ) (hD : EffOn G D) : ∀ k, EffOn G ((dharStep G u)^[k] D) := by
  intro k
  induction k with
  | zero => exact hD
  | succ k ih =>
    rw [Function.iterate_succ_apply']
    exact fire_burnFS_eff G hG _ u hu ih

theorem dharIter_linEquiv (G : MyGraph) (u : ℕ) (D : ℕ → ℤ) :
    ∀ k, LinEquiv G D ((dharStep G u)^[k] D) := by
  intro k
  induction k with
  | zero => exact linEquiv_refl G D
  | succ k ih =>
    rw [Function.iterate_succ_apply']
    refine linEquiv_trans G ih ?_
    exact fireList_linEquiv G _ _ (burnFS_mem_lt G _ u)

theorem dharIter_degSum (G : MyGraph) (hG : ValidGraph G) (u : ℕ) (D : ℕ → ℤ) :
    ∀ k, degSum G ((dharStep G u)^[k] D) = degSum G D :=
  fun k => linEquiv_degSum G hG (dharIter_linEquiv G u D k)

/-- Cumulative firing counts over the first `k` rounds. -/
def dharScript (G : MyGraph) (u : ℕ) (D : ℕ → ℤ) (k : ℕ) : ℕ → ℤ :=
  fun v => ∑ m ∈ Finset.range k, ((burnFS G ((dharStep G u)^[m] D) u).count v : ℤ)

theorem dharIter_lap (G : MyGraph) (u : ℕ) (D : ℕ → ℤ) :
    ∀ k x, ((dharStep G u)^[k] D) x = D x - lap G (dharScript G u D k) x := by
  intro k
  induction k with
  | zero =>
    intro x
    have hz : dharScript G u D 0 = fun _ => (0 : ℤ) := by
      funext v; simp [dharScript]
    rw [hz, lap_zero]
    simp
  | succ k ih =>
    intro x
    rw [Function.iterate_succ_apply']
    show fireList G ((dharStep G u)^[k] D) (burnFS G ((dharStep G u)^[k] D) u) x = _
    rw [fireList_eq_lap G _ _ (burnFS_mem_lt G _ u) x, ih x]
    have hsplit : dharScript G u D (k + 1) = fun v => dharScript G u D k v
        + ((burnFS G ((dharStep G u)^[k] D) u).count v : ℤ) := by
      funext v
      unfold dharScript
      rw [Finset.sum_range_succ]
    rw [hsplit, lap_add]
    ring

theorem entry_le_degSum (G : MyGraph) (D : ℕ → ℤ) (hD : EffOn G D)
    {v : ℕ} (hv : v < gn G) : D v ≤ degSum G D := by
  unfold degSum
  exact Finset.single_le_sum (fun x hx => hD x (Finset.mem_range.mp hx))
    (Finset.mem_range.mpr hv)

/-- Relative kernel lemma: a non-negative script supported on a closed,
connected-from-`u` set, Laplacian-harmonic there and vanishing at `u`,
vanishes identically on the set. -/
theorem lap_kernel_rel (G : MyGraph) (hG : ValidGraph G) (C : Finset ℕ)
    (hCr : C ⊆ Finset.range (gn G))
    (hCc : ∀ v ∈ C, ∀ w, 0 < mult G v w → w ∈ C)
    (u : ℕ) (huC : u ∈ C) (hconn : ∀ v ∈ C, Reach G u v)
    (s : ℕ → ℤ) (hsupp : ∀ x, x ∉ C → s x = 0)
    (hlap : ∀ x ∈ C, lap G s x = 0)
    (hpos : ∀ x, 0 ≤ s x) (hu0 : s u = 0) :
    ∀ x ∈ C, s x = 0 := by
  obtain ⟨b, hbC, hbmax⟩ := Finset.exists_max_image C s ⟨u, huC⟩
  have hstep : ∀ a ∈ C, s a = s b → ∀ w, 0 < mult G w a → s w = s b := by
    intro a haC hab w hw
    have hwa : 0 < mult G a w := by rw [hG.2 a w]; exact hw
    have hwC : w ∈ C := hCc a haC w hwa
    have hla := hlap a haC
    have hdeg : (degr G a : ℤ) = ∑ v ∈ Finset.range (gn G), (mult G v a : ℤ) := by
      rw [← Nat.cast_sum]
      exact_mod_cast congrArg (Nat.cast : ℕ → ℤ) (edgesTo_range G hG a).symm
    have hsum : ∑ v ∈ Finset.range (gn G), (s a - s v) * (mult G v a : ℤ) = 0 := by
      have hexp : ∀ v ∈ Finset.range (gn G),
          (s a - s v) * (mult G v a : ℤ)
            = s a * (mult G v a : ℤ) - s v * (mult G v a : ℤ) :=
        fun v _ => sub_mul _ _ _
      rw [Finset.sum_congr rfl hexp, Finset.sum_sub_distrib, ← Finset.mul_sum, ← hdeg]
      unfold lap at hla
      rw [hab] at hla ⊢
      omega
    have hnn : ∀ v ∈ Finset.range (gn G), 0 ≤ (s a - s v) * (mult G v a : ℤ) := by
      intro v _
      by_cases hvC : v ∈ C
      · refine mul_nonneg ?_ (Int.natCast_nonneg _)
        have := hbmax v hvC
        omega
      · have hm : mult G v a = 0 := by
          by_contra hm
          have : 0 < mult G a v := by
            rw [hG.2 a v]
            omega
          exact hvC (hCc a haC v this)
        rw [hm]
        simp
    have hall := (Finset.sum_eq_zero_iff_of_nonneg hnn).mp hsum
    have hwrange : w ∈ Finset.range (gn G) := hCr hwC
    have hterm := hall w hwrange
    rcases mul_eq_zero.mp hterm with h | h
    · rw [← hab]; omega
    · exfalso
      have : (0 : ℤ) < (mult G w a : ℤ) := by exact_mod_cast hw
      omega
  have hprop : ∀ x, Reach G b x → x ∈ C → s x = s b := by
    intro x hx
    induction hx with
    | refl => intro _; rfl
    | tail v w hR hmem ih =>
      intro hwC
      have hvw : 0 < mult G v w := (mem_nbr_iff_mult G v w).mp hmem
      have hwv : 0 < mult G w v := by rw [hG.2 w v]; exact hvw
      have hvC : v ∈ C := hCc w hwC v hwv
      exact hstep v hvC (ih hvC) w hwv
  have hub : s u = s b := by
    refine hprop u ?_ huC
    exact reach_symm G hG (hconn b hbC)
  intro x hxC
  have h1 := hbmax x hxC
  have h2 := hpos x
  omega

/-- "The component `C` is completely burnt": every vertex of `C` is pushed
by the burning run from `u` at `D`. -/
def LocalDone (G : MyGraph) (u : ℕ) (C : Finset ℕ) (D : ℕ → ℤ) : Prop :=
  ∀ v ∈ C, v ∈ burnPushed G D u

/-- Within `((degSum D).toNat + 1) ^ |C|` rounds of burn-and-fire from `u`,
the whole of the closed connected set `C` gets burnt. -/
theorem dhar_localDone_exists (G : MyGraph) (hG : ValidGraph G) (C : Finset ℕ)
    (hCr : C ⊆ Finset.range (gn G))
    (hCc : ∀ v ∈ C, ∀ w, 0 < mult G v w → w ∈ C)
    (u : ℕ) (hu : u < gn G) (huC : u ∈ C) (hconn : ∀ v ∈ C, Reach G u v)
    (D : ℕ → ℤ) (hD : EffOn G D) :
    ∃ k ≤ ((degSum G D).toNat + 1) ^ C.card,
      LocalDone G u C ((dharStep G u)^[k] D) := by
  have main : ∀ i j : ℕ, i < j →
      (∀ v ∈ C, ((dharStep G u)^[i] D) v = ((dharStep G u)^[j] D) v) →
      LocalDone G u C ((dharStep G u)^[i] D) := by
    intro i j hij hagree
    have heffm : ∀ m, EffOn G ((dharStep G u)^[m] D) := dharIter_eff G hG u hu D hD
    set s : ℕ → ℤ :=
      fun v => ∑ m ∈ Finset.Ico i j, ((burnFS G ((dharStep G u)^[m] D) u).count v : ℤ)
      with hs_def
    have hscript : ∀ v, dharScript G u D j v = dharScript G u D i v + s v := by
      intro v
      unfold dharScript
      rw [hs_def]
      exact (Finset.sum_range_add_sum_Ico _ (le_of_lt hij)).symm
    have hlapw : ∀ x, ((dharStep G u)^[j] D) x = ((dharStep G u)^[i] D) x - lap G s x := by
      intro x
      rw [dharIter_lap G u D j x, dharIter_lap G u D i x]
      have hfun : dharScript G u D j = fun v => dharScript G u D i v + s v :=
        funext hscript
      rw [hfun, lap_add]
      ring
    have hlapC : ∀ x ∈ C, lap G s x = 0 := by
      intro x hxC
      have h1 := hlapw x
      have h2 := hagree x hxC
      omega
    set s' : ℕ → ℤ := fun v => if v ∈ C then s v else 0 with hsPrimeDef
    have hspos : ∀ v, 0 ≤ s v := by
      intro v
      rw [hs_def]
      exact Finset.sum_nonneg fun m _ => Int.natCast_nonneg _
    have hs'lap : ∀ x ∈ C, lap G s' x = 0 := by
      intro x hxC
      have heq : lap G s' x = lap G s x := by
        unfold lap
        rw [hsPrimeDef]
        simp only [if_pos hxC]
        congr 1
        refine Finset.sum_congr rfl fun v _ => ?_
        by_cases hvC : v ∈ C
        · simp [if_pos hvC]
        · have hm : mult G v x = 0 := by
            by_contra hm
            have : 0 < mult G x v := by rw [hG.2 x v]; omega
            exact hvC (hCc x hxC v this)
          simp [if_neg hvC, hm]
      rw [heq]
      exact hlapC x hxC
    have hsu : s u = 0 := by
      rw [hs_def]
      refine Finset.sum_eq_zero fun m _ => ?_
      have hmem : u ∈ burnPushed G ((dharStep G u)^[m] D) u :=
        (burnPushed_spec G _ u hG (fun v hv _ => heffm m v hv)).2.2
      have : u ∉ burnFS G ((dharStep G u)^[m] D) u := by
        intro hc
        exact ((mem_burnFS G _ u u).mp hc).2 hmem
      rw [List.count_eq_zero_of_not_mem this]
      rfl
    have hker := lap_kernel_rel G hG C hCr hCc u huC hconn s'
      (fun x hx => by rw [hsPrimeDef]; simp [if_neg hx])
      hs'lap
      (fun x => by
        rw [hsPrimeDef]
        by_cases hx : x ∈ C
        · simp only [if_pos hx]; exact hspos x
        · simp [if_neg hx])
      (by rw [hsPrimeDef]; simp only [if_pos huC]; exact hsu)
    intro v hvC
    have hs0 : s v = 0 := by
      have := hker v hvC
      rw [hsPrimeDef] at this
      simpa [if_pos hvC] using this
    have hterm : ((burnFS G ((dharStep G u)^[i] D) u).count v : ℤ) = 0 := by
      rw [hs_def] at hs0
      have := (Finset.sum_eq_zero_iff_of_nonneg
        (fun m (_ : m ∈ Finset.Ico i j) => Int.natCast_nonneg
          ((burnFS G ((dharStep G u)^[m] D) u).count v))).mp hs0
      exact this i (Finset.mem_Ico.mpr ⟨le_refl i, hij⟩)
    have hnotmem : v ∉ burnFS G ((dharStep G u)^[i] D) u := by
      intro hc
      have := List.count_pos_iff_mem.mpr hc
      omega
    have hvlt : v < gn G := Finset.mem_range.mp (hCr hvC)
    by_contra hvp
    exact hnotmem ((mem_burnFS G _ u v).mpr ⟨hvlt, hvp⟩)
  -- pigeonhole over the restrictions to C
  set M := (degSum G D).toNat with hM
  set N := (M + 1) ^ C.card with hN
  have hbound : ∀ k, ∀ v ∈ C, ((dharStep G u)^[k] D v).toNat < M + 1 := by
    intro k v hvC
    have hvlt : v < gn G := Finset.mem_range.mp (hCr hvC)
    have heff := dharIter_eff G hG u hu D hD k
    have hle : ((dharStep G u)^[k] D) v ≤ degSum G D := by
      rw [← dharIter_degSum G hG u D k]
      exact entry_le_degSum G _ heff hvlt
    have := Int.toNat_le_toNat hle
    omega
  have hcard : Fintype.card ({x // x ∈ C} → Fin (M + 1)) < Fintype.card (Fin (N + 1)) := by
    rw [Fintype.card_fun, Fintype.card_fin, Fintype.card_fin, Fintype.card_coe]
    omega
  obtain ⟨i, j, hne, heq⟩ := Fintype.exists_ne_map_eq_of_card_lt
    (fun (k : Fin (N + 1)) => fun (v : {x // x ∈ C}) =>
      (⟨((dharStep G u)^[k.1] D v.1).toNat, hbound k.1 v.1 v.2⟩ : Fin (M + 1)))
    hcard
  have hagree : ∀ v ∈ C, ((dharStep G u)^[i.1] D) v = ((dharStep G u)^[j.1] D) v := by
    intro v hvC
    have h1 := congrFun heq ⟨v, hvC⟩
    have h2 : ((dharStep G u)^[i.1] D v).toNat = ((dharStep G u)^[j.1] D v).toNat :=
      congrArg Fin.val h1
    have hvlt : v < gn G := Finset.mem_range.mp (hCr hvC)
    have hnn1 : 0 ≤ (dharStep G u)^[i.1] D v := dharIter_eff G hG u hu D hD i.1 v hvlt
    have hnn2 : 0 ≤ (dharStep G u)^[j.1] D v := dharIter_eff G hG u hu D hD j.1 v hvlt
    omega
  have hij : i.1 ≠ j.1 := fun hc => hne (Fin.ext hc)
  rcases Nat.lt_or_ge i.1 j.1 with h | h
  · exact ⟨i.1, Nat.le_of_lt_succ i.2, main i.1 j.1 h hagree⟩
  · have hlt : j.1 < i.1 := lt_of_le_of_ne h (Ne.symm hij)
    exact ⟨j.1, Nat.le_of_lt_succ j.2,
      main j.1 i.1 hlt (fun v hv => (hagree v hv).symm)⟩

theorem reduceLoop_isSome_of_done (G : MyGraph) (target : ℕ) :
    ∀ m (D sc : ℕ → ℤ),
      (∃ k ≤ m, burnFS G ((dharStep G target)^[k] D) target = []) →
      (reduceLoop G target (m + 1) D sc).isSome := by
  intro m
  induction m with
  | zero =>
    rintro D sc ⟨k, hk, hfs⟩
    have hk0 : k = 0 := Nat.le_zero.mp hk
    subst hk0
    simp only [Function.iterate_zero, id] at hfs
    simp [reduceLoop, hfs]
  | succ m ih =>
    rintro D sc ⟨k, hk, hfs⟩
    by_cases h0 : burnFS G D target = []
    · simp [reduceLoop, h0]
    · have hk0 : k ≠ 0 := by
        rintro rfl
        simp only [Function.iterate_zero, id] at hfs
        exact h0 hfs
      obtain ⟨k', rfl⟩ := Nat.exists_eq_succ_of_ne_zero hk0
      show (reduceLoop G target (m + 1 + 1) D sc).isSome
      simp only [reduceLoop]
      rw [if_neg h0]
      apply ih
      refine ⟨k', by omega, ?_⟩
      rw [Function.iterate_succ_apply] at hfs
      exact hfs

theorem range_closed (G : MyGraph) (hG : ValidGraph G) :
    ∀ v ∈ Finset.range (gn G), ∀ w, 0 < mult G v w → w ∈ Finset.range (gn G) := by
  intro v _ w hw
  rw [← mem_nbr_iff_mult] at hw
  exact Finset.mem_range.mpr (hG.1 v w hw).1

/-- **C5 (amended).** On a valid *connected* graph, the burn-and-fire loop
of `reduce` terminates for every effective divisor and every target. -/
theorem reduce_terminates_connected (G : MyGraph) (hG : ValidGraph G)
    (hc : Connected G) (D : ℕ → ℤ) (hD : EffOn G D) (target : ℕ)
    (htlt : target < gn G) :
    ∃ fuel p, reduceRun G D target fuel = some p := by
  obtain ⟨k, hk, hdone⟩ := dhar_localDone_exists G hG (Finset.range (gn G))
    (Finset.Subset.refl _) (range_closed G hG) target htlt
    (Finset.mem_range.mpr htlt)
    (fun v hv => connected_reach G hG hc htlt (Finset.mem_range.mp hv))
    D hD
  have hfs : burnFS G ((dharStep G target)^[k] D) target = [] := by
    rw [burnFS_nil_iff]
    intro v hv
    exact hdone v (Finset.mem_range.mpr hv)
  have := reduceLoop_isSome_of_done G target
    (((degSum G D).toNat + 1) ^ (Finset.range (gn G)).card) D (fun _ => 0)
    ⟨k, hk, hfs⟩
  obtain ⟨p, hp⟩ := Option.isSome_iff_exists.mp this
  exact ⟨_, p, hp⟩

theorem connected_of_compFS (G : MyGraph) (hG : ValidGraph G) (h0 : 0 < gn G)
    (h : ∀ v < gn G, v ∈ compFS G 0) : Connected G :=
  fun v hv => (mem_compFS G hG 0 h0 v).mp (h v hv)

/-- Witness for the amended C5 on the connected graph `P_2`. -/
theorem reduce_terminates_connected_witness :
    ∃ fuel p, reduceRun gP2 (fun x => if x = 1 then 1 else 0) 0 fuel = some p :=
  reduce_terminates_connected gP2 ((validB_iff gP2).mpr (by decide))
    (connected_of_compFS gP2 ((validB_iff gP2).mpr (by decide)) (by decide) (by decide))
    (fun x => if x = 1 then 1 else 0) (by intro x _; simp only []; split <;> norm_num)
    0 (by decide)

/-- Among effective divisors in one linear-equivalence class, one whose
burning run has burnt a whole closed connected set `C ∋ u` carries at least
as many chips on `u` as any other (the classical maximality property of
reduced divisors, relative to `C`). -/
theorem reduced_maximizes (G : MyGraph) (hG : ValidGraph G) (C : Finset ℕ)
    (hCr : C ⊆ Finset.range (gn G))
    (hCc : ∀ v ∈ C, ∀ w, 0 < mult G v w → w ∈ C)
    (u : ℕ) (hu : u < gn G) (huC : u ∈ C)
    (D : ℕ → ℤ) (hD : EffOn G D)
    (hdone : ∀ v ∈ C, v ∈ burnPushed G D u)
    (E : ℕ → ℤ) (hE : EffOn G E) (hlin : LinEquiv G D E) :
    E u ≤ D u := by
  obtain ⟨s, hs0, hs⟩ := hlin
  set σ : ℕ → ℤ := fun v => if v ∈ C then -(s v) else 0 with hσ_def
  have hmultC : ∀ x ∈ C, ∀ v, v ∉ C → mult G v x = 0 := by
    intro x hxC v hvC
    by_contra hm
    have : 0 < mult G x v := by rw [hG.2 x v]; omega
    exact hvC (hCc x hxC v this)
  have hDE : ∀ x ∈ C, D x = E x - lap G σ x := by
    intro x hxC
    have hlapneg : lap G σ x = -(lap G s x) := by
      unfold lap
      rw [hσ_def]
      simp only [if_pos hxC]
      have hsum : ∑ v ∈ Finset.range (gn G), (if v ∈ C then -(s v) else 0) * (mult G v x : ℤ)
          = ∑ v ∈ Finset.range (gn G), -(s v * (mult G v x : ℤ)) := by
        refine Finset.sum_congr rfl fun v _ => ?_
        by_cases hvC : v ∈ C
        · rw [if_pos hvC]; ring
        · rw [if_neg hvC, hmultC x hxC v hvC]
          simp
      rw [hsum, Finset.sum_neg_distrib]
      ring
    rw [hlapneg, hs x]
    ring
  obtain ⟨c, hcC, hcmin⟩ := Finset.exists_min_image C σ ⟨u, huC⟩
  set τ : ℕ → ℤ := fun v => if v ∈ C then σ v - σ c else 0 with hτ_def
  have hτpos : ∀ v, 0 ≤ τ v := by
    intro v
    rw [hτ_def]
    by_cases hvC : v ∈ C
    · simp only [if_pos hvC]
      have := hcmin v hvC
      omega
    · simp [if_neg hvC]
  have hdegC : ∀ x ∈ C, (degr G x : ℤ) = ∑ v ∈ Finset.range (gn G), (mult G v x : ℤ) := by
    intro x _
    rw [← Nat.cast_sum]
    exact_mod_cast congrArg (Nat.cast : ℕ → ℤ) (edgesTo_range G hG x).symm
  have hτlap : ∀ x ∈ C, lap G τ x = lap G σ x := by
    intro x hxC
    unfold lap
    rw [hτ_def, hσ_def]
    simp only [if_pos hxC]
    have hsum : ∑ v ∈ Finset.range (gn G),
        (if v ∈ C then σ v - σ c else 0) * (mult G v x : ℤ)
        = ∑ v ∈ Finset.range (gn G),
          ((if v ∈ C then -(s v) else 0) * (mult G v x : ℤ) - σ c * (mult G v x : ℤ)) := by
      refine Finset.sum_congr rfl fun v _ => ?_
      by_cases hvC : v ∈ C
      · rw [if_pos hvC, if_pos hvC, hσ_def]
        simp only [if_pos hvC]
        ring
      · rw [if_neg hvC, if_neg hvC, hmultC x hxC v hvC]
        simp
    rw [hsum, Finset.sum_sub_distrib, ← Finset.mul_sum, ← hdegC x hxC, hσ_def]
    simp only [if_pos hxC]
    ring
  have hDEτ : ∀ x ∈ C, D x = E x - lap G τ x := by
    intro x hxC
    rw [hτlap x hxC]
    exact hDE x hxC
  set A := C.filter (fun v => τ v = 0) with hA_def
  have hAsubC : A ⊆ C := Finset.filter_subset _ _
  have hAne : A.Nonempty := by
    refine ⟨c, Finset.mem_filter.mpr ⟨hcC, ?_⟩⟩
    rw [hτ_def]
    simp [if_pos hcC]
  by_cases huA : u ∈ A
  · -- u is in the zero set of the normalised script: direct comparison
    have hτu : τ u = 0 := (Finset.mem_filter.mp huA).2
    have h := hDEτ u huC
    unfold lap at h
    rw [hτu] at h
    have hsumnn : 0 ≤ ∑ v ∈ Finset.range (gn G), τ v * (mult G v u : ℤ) :=
      Finset.sum_nonneg fun v _ => mul_nonneg (hτpos v) (Int.natCast_nonneg _)
    omega
  · -- otherwise the zero set is a legal firing set avoiding u, inside the burnt region
    exfalso
    have hlegal : LegalFire G D A := by
      intro w hwA
      have hwC : w ∈ C := hAsubC hwA
      have hwlt : w < gn G := Finset.mem_range.mp (hCr hwC)
      have hτw : τ w = 0 := (Finset.mem_filter.mp hwA).2
      have hDw := hDEτ w hwC
      unfold lap at hDw
      rw [hτw] at hDw
      -- D w = E w + Σ τ v mult v w
      have hbound : (edgesTo G (C \ A) w : ℤ)
          ≤ ∑ v ∈ Finset.range (gn G), τ v * (mult G v w : ℤ) := by
        have hsub : C \ A ⊆ Finset.range (gn G) := Finset.Subset.trans (Finset.sdiff_subset) hCr
        have h1 : ∑ v ∈ C \ A, (mult G v w : ℤ)
            ≤ ∑ v ∈ C \ A, τ v * (mult G v w : ℤ) := by
          refine Finset.sum_le_sum fun v hv => ?_
          obtain ⟨hvC, hvA⟩ := Finset.mem_sdiff.mp hv
          have hτv : τ v ≠ 0 := by
            intro hc
            exact hvA (Finset.mem_filter.mpr ⟨hvC, hc⟩)
          have hτv1 : 1 ≤ τ v := by
            have := hτpos v
            omega
          calc (mult G v w : ℤ) = 1 * (mult G v w : ℤ) := (one_mul _).symm
            _ ≤ τ v * (mult G v w : ℤ) :=
              mul_le_mul_of_nonneg_right hτv1 (Int.natCast_nonneg _)
        have h2 : ∑ v ∈ C \ A, τ v * (mult G v w : ℤ)
            ≤ ∑ v ∈ Finset.range (gn G), τ v * (mult G v w : ℤ) := by
          refine Finset.sum_le_sum_of_subset_of_nonneg hsub fun v _ _ =>
            mul_nonneg (hτpos v) (Int.natCast_nonneg _)
        have h0 : (edgesTo G (C \ A) w : ℤ) = ∑ v ∈ C \ A, (mult G v w : ℤ) := by
          unfold edgesTo
          push_cast
          rfl
        omega
      have hdegw : (degr G w : ℤ) = (edgesTo G A w : ℤ) + (edgesTo G (C \ A) w : ℤ) := by
        have hCsum : (edgesTo G C w : ℤ) = (edgesTo G A w : ℤ) + (edgesTo G (C \ A) w : ℤ) := by
          unfold edgesTo
          push_cast
          rw [← Finset.sum_sdiff hAsubC]
          ring
        have hCdeg : (edgesTo G C w : ℤ) = (degr G w : ℤ) := by
          have : edgesTo G C w = edgesTo G (Finset.range (gn G)) w := by
            unfold edgesTo
            refine Finset.sum_subset hCr fun v _ hvC => hmultC w hwC v hvC
          rw [this, edgesTo_range G hG w]
        omega
      have hEw : 0 ≤ E w := hE w hwlt
      omega
    have hdisj := Burns_disjoint_legal G hG D u hu A
      (Finset.Subset.trans hAsubC hCr) huA hlegal
    obtain ⟨a, haA⟩ := hAne
    have haC : a ∈ C := hAsubC haA
    have haB : Burns G D u a :=
      (burnPushed_spec G D u hG (fun v hv _ => hD v hv)).1 a (hdone a haC)
    exact hdisj a haB haA

/-! ## `has_positive_rank` of divisors.h

The mathematical property (the spec's definition of positive rank), the
faithful embedding of the doubly-nested loop of `has_positive_rank` (fuel on
the inner `while`), and the state invariant carried by the proofs. -/

/-- `D - 1_u` is linearly equivalent to an effective divisor, for every
vertex `u` of `G` (the spec's definition of positive rank). -/
def PosRank (G : MyGraph) (D : ℕ → ℤ) : Prop :=
  ∀ u < gn G, ∃ E : ℕ → ℤ, EffOn G E ∧
    LinEquiv G (fun x => D x - if x = u then 1 else 0) E

/-- Some effective divisor linearly equivalent to `D` has a chip on `u`. -/
def PosRankAt (G : MyGraph) (D : ℕ → ℤ) (u : ℕ) : Prop :=
  ∃ E : ℕ → ℤ, EffOn G E ∧ LinEquiv G D E ∧ 1 ≤ E u

theorem posRank_iff_at (G : MyGraph) (D : ℕ → ℤ) :
    PosRank G D ↔ ∀ u < gn G, PosRankAt G D u := by
  constructor
  · intro h u hu
    obtain ⟨E', hE'eff, hE'lin⟩ := h u hu
    obtain ⟨s, hs0, hs⟩ := hE'lin
    refine ⟨fun x => E' x + if x = u then 1 else 0, ?_, ⟨s, hs0, ?_⟩, ?_⟩
    · intro x hx
      have h1 := hE'eff x hx
      show 0 ≤ E' x + if x = u then 1 else 0
      by_cases hxu : x = u
      · rw [if_pos hxu]; omega
      · rw [if_neg hxu]; omega
    · intro x
      have h1 := hs x
      show E' x + (if x = u then 1 else 0) = D x - lap G s x
      have h2 : E' x = (D x - if x = u then 1 else 0) - lap G s x := h1
      omega
    · show 1 ≤ E' u + if u = u then 1 else 0
      have h1 := hE'eff u hu
      rw [if_pos rfl]
      omega
  · intro h u hu
    obtain ⟨E, hEeff, hElin, hEu⟩ := h u hu
    obtain ⟨s, hs0, hs⟩ := hElin
    refine ⟨fun x => E x - if x = u then 1 else 0, ?_, ⟨s, hs0, ?_⟩⟩
    · intro x hx
      have h1 := hEeff x hx
      show 0 ≤ E x - if x = u then 1 else 0
      by_cases hxu : x = u
      · subst hxu
        simp only [if_pos rfl]
        omega
      · simp only [if_neg hxu]
        omega
    · intro x
      have h1 : E x = D x - lap G s x := hs x
      show E x - (if x = u then 1 else 0) = (D x - if x = u then 1 else 0) - lap G s x
      omega

/-- Initial `__can_reach` flags: `can_reach[i] = (divisor[i] > 0)` for the
vertices of `G`. -/
def crInit (G : MyGraph) (D : ℕ → ℤ) : ℕ → Bool :=
  fun v => decide (v < gn G) && decide (0 < D v)

/-- Flag update after a firing round: `if (tmp[v] > 0) can_reach[v] = true`. -/
def crUpd (G : MyGraph) (tmp : ℕ → ℤ) (cr : ℕ → Bool) : ℕ → Bool :=
  fun v => cr v || (decide (v < gn G) && decide (0 < tmp v))

/-- The inner `while (!can_reach[u])` loop of `has_positive_rank`, with fuel.
Returns `(false, …)` when the firing set is empty (the `return false` of the
source), `(true, …)` when the flag for `u` is set. -/
def hprInner (G : MyGraph) (u : ℕ) : ℕ → (ℕ → ℤ) → (ℕ → Bool) → Option (Bool × (ℕ → ℤ) × (ℕ → Bool))
  | 0, _, _ => none
  | fuel + 1, tmp, cr =>
    if cr u then some (true, tmp, cr)
    else if burnFS G tmp u = [] then some (false, tmp, cr)
    else
      hprInner G u fuel (fireList G tmp (burnFS G tmp u))
        (crUpd G (fireList G tmp (burnFS G tmp u)) cr)

/-- The outer `for (u = 0; u < n; u++)` loop of `has_positive_rank`. -/
def hprOuter (G : MyGraph) (fuel : ℕ) : List ℕ → (ℕ → ℤ) → (ℕ → Bool) → Option Bool
  | [], _, _ => some true
  | u :: us, tmp, cr =>
    match hprInner G u fuel tmp cr with
    | none => none
    | some (false, _, _) => some false
    | some (true, tmp', cr') => hprOuter G fuel us tmp' cr'

/-- `has_positive_rank(G, divisor)`, with fuel for the inner loops. -/
def hpr (G : MyGraph) (D : ℕ → ℤ) (fuel : ℕ) : Option Bool :=
  hprOuter G fuel (List.range (gn G)) D (crInit G D)

/-- The state invariant of `has_positive_rank`: the working divisor is
effective and linearly equivalent to the input, every set flag is witnessed
by an equivalent effective divisor with a chip on that vertex, flags cover
every vertex currently holding a chip, and the divisor is untouched outside
`G`. -/
def HprInv (G : MyGraph) (D : ℕ → ℤ) (tmp : ℕ → ℤ) (cr : ℕ → Bool) : Prop :=
  EffOn G tmp ∧ LinEquiv G D tmp ∧
    (∀ v, cr v = true → v < gn G ∧ PosRankAt G D v) ∧
    (∀ v < gn G, 0 < tmp v → cr v = true) ∧
    (∀ x, gn G ≤ x → tmp x = D x)

theorem hprInv_init (G : MyGraph) (D : ℕ → ℤ) (hD : EffOn G D) :
    HprInv G D D (crInit G D) := by
  refine ⟨hD, linEquiv_refl G D, ?_, ?_, fun _ _ => rfl⟩
  · intro v hv
    unfold crInit at hv
    rw [Bool.and_eq_true, decide_eq_true_eq, decide_eq_true_eq] at hv
    exact ⟨hv.1, ⟨D, hD, linEquiv_refl G D, by omega⟩⟩
  · intro v hv hpos
    unfold crInit
    rw [Bool.and_eq_true, decide_eq_true_eq, decide_eq_true_eq]
    exact ⟨hv, hpos⟩

theorem hprInv_step (G : MyGraph) (hG : ValidGraph G) (D : ℕ → ℤ) (u : ℕ)
    (hu : u < gn G) (tmp : ℕ → ℤ) (cr : ℕ → Bool) (hInv : HprInv G D tmp cr) :
    HprInv G D (fireList G tmp (burnFS G tmp u))
      (crUpd G (fireList G tmp (burnFS G tmp u)) cr) := by
  obtain ⟨heff, hlin, hwit, hsync, hoff⟩ := hInv
  have heff' : EffOn G (fireList G tmp (burnFS G tmp u)) :=
    fire_burnFS_eff G hG tmp u hu heff
  have hlin' : LinEquiv G D (fireList G tmp (burnFS G tmp u)) :=
    linEquiv_trans G hlin (fireList_linEquiv G tmp _ (burnFS_mem_lt G tmp u))
  refine ⟨heff', hlin', ?_, ?_, ?_⟩
  · intro v hv
    unfold crUpd at hv
    rw [Bool.or_eq_true] at hv
    rcases hv with hv | hv
    · exact hwit v hv
    · rw [Bool.and_eq_true, decide_eq_true_eq, decide_eq_true_eq] at hv
      exact ⟨hv.1, ⟨fireList G tmp (burnFS G tmp u), heff', hlin', by omega⟩⟩
  · intro v hv hpos
    unfold crUpd
    rw [Bool.or_eq_true, Bool.and_eq_true, decide_eq_true_eq, decide_eq_true_eq]
    exact Or.inr ⟨hv, hpos⟩
  · intro x hx
    rw [fireList_out_of_range G hG tmp _ (burnFS_mem_lt G tmp u) x hx]
    exact hoff x hx

/-- Soundness of the inner loop: the result state satisfies the invariant;
a `true` result has the flag for `u` set, a `false` result means the firing
set at the final state is empty while the flag for `u` is unset. -/
theorem hprInner_sound (G : MyGraph) (hG : ValidGraph G) (D : ℕ → ℤ) (u : ℕ)
    (hu : u < gn G) :
    ∀ fuel tmp cr b tmp' cr', HprInv G D tmp cr →
      hprInner G u fuel tmp cr = some (b, tmp', cr') →
      HprInv G D tmp' cr' ∧
        (b = true → cr' u = true) ∧
        (b = false → cr' u = false ∧ burnFS G tmp' u = []) := by
  intro fuel
  induction fuel with
  | zero => intro tmp cr b tmp' cr' _ h; simp [hprInner] at h
  | succ f ih =>
    intro tmp cr b tmp' cr' hInv h
    simp only [hprInner] at h
    by_cases hcr : cr u
    · rw [if_pos hcr] at h
      obtain ⟨h1, h2, h3⟩ : b = true ∧ tmp = tmp' ∧ cr = cr' := by
        have := Option.some_inj.mp h
        refine ⟨(congrArg Prod.fst this).symm, ?_, ?_⟩
        · exact congrArg (fun p => p.2.1) this
        · exact congrArg (fun p => p.2.2) this
      subst h2; subst h3
      exact ⟨hInv, fun _ => hcr, fun hb => absurd (h1 ▸ hb) (by simp)⟩
    · rw [if_neg hcr] at h
      by_cases hfs : burnFS G tmp u = []
      · rw [if_pos hfs] at h
        obtain ⟨h1, h2, h3⟩ : b = false ∧ tmp = tmp' ∧ cr = cr' := by
          have := Option.some_inj.mp h
          refine ⟨(congrArg Prod.fst this).symm, ?_, ?_⟩
          · exact congrArg (fun p => p.2.1) this
          · exact congrArg (fun p => p.2.2) this
        subst h2; subst h3
        refine ⟨hInv, fun hb => absurd (h1 ▸ hb) (by simp), fun _ => ⟨?_, hfs⟩⟩
        exact Bool.not_eq_true _ ▸ (by simpa using hcr)
      · rw [if_neg hfs] at h
        exact ih _ _ b tmp' cr' (hprInv_step G hG D u hu tmp cr hInv) h

/-- If the inner loop returns `false`, no effective divisor equivalent to
`D` can put a chip on `u` (soundness of the `return false`, on any valid
graph): the final working divisor is u-reduced on the component of `u` with
zero chips on `u`, and reduced divisors maximise chips at `u`. -/
theorem hprInner_false_not_posRankAt (G : MyGraph) (hG : ValidGraph G)
    (D : ℕ → ℤ) (u : ℕ) (hu : u < gn G) (fuel : ℕ) (tmp : ℕ → ℤ) (cr : ℕ → Bool)
    (tmp' : ℕ → ℤ) (cr' : ℕ → Bool) (hInv : HprInv G D tmp cr)
    (h : hprInner G u fuel tmp cr = some (false, tmp', cr')) :
    ¬ PosRankAt G D u := by
  obtain ⟨hInv', _, hfalse⟩ :=
    hprInner_sound G hG D u hu fuel tmp cr false tmp' cr' hInv h
  obtain ⟨hcr', hfs⟩ := hfalse rfl
  obtain ⟨heff', hlin', hwit', hsync', hoff'⟩ := hInv'
  have hu0 : tmp' u ≤ 0 := by
    by_contra hpos
    push_neg at hpos
    have := hsync' u hu hpos
    rw [this] at hcr'
    exact Bool.noConfusion hcr'
  rintro ⟨E, hEeff, hElin, hEu⟩
  have hdone : ∀ v ∈ compFS G u, v ∈ burnPushed G tmp' u := by
    intro v hv
    have hvlt : v < gn G := Finset.mem_range.mp (compFS_subset_range G hG u hu hv)
    exact (burnFS_nil_iff G tmp' u).mp hfs v hvlt
  have hmax := reduced_maximizes G hG (compFS G u) (compFS_subset_range G hG u hu)
    (compFS_closed G hG u hu) u hu (compFS_self G hG u hu) tmp' heff' hdone E hEeff
    (linEquiv_trans G (linEquiv_symm G hlin') hElin)
  omega

/-- At a state whose `u`-component is fully burnt, the flag for `u` must
already be set (when some equivalent effective divisor has a chip on `u`):
maximality forces a chip on `u`. -/
theorem hprFlag_of_localDone (G : MyGraph) (hG : ValidGraph G) (D : ℕ → ℤ)
    (u : ℕ) (hu : u < gn G) (hat : PosRankAt G D u) (tmp : ℕ → ℤ) (cr : ℕ → Bool)
    (hInv : HprInv G D tmp cr) (hdone : LocalDone G u (compFS G u) tmp) :
    cr u = true := by
  obtain ⟨heff, hlin, hwit, hsync, hoff⟩ := hInv
  obtain ⟨E, hEeff, hElin, hEu⟩ := hat
  have hmax := reduced_maximizes G hG (compFS G u) (compFS_subset_range G hG u hu)
    (compFS_closed G hG u hu) u hu (compFS_self G hG u hu) tmp heff hdone E hEeff
    (linEquiv_trans G (linEquiv_symm G hlin) hElin)
  exact hsync u hu (by omega)

/-- Completeness of the inner loop: if some equivalent effective divisor has
a chip on `u`, the loop exits with `true` within the local-termination bound
(valid for any valid graph, connected or not). -/
theorem hprInner_complete (G : MyGraph) (hG : ValidGraph G) (D : ℕ → ℤ)
    (u : ℕ) (hu : u < gn G) (hat : PosRankAt G D u) :
    ∀ j fuel tmp cr, HprInv G D tmp cr →
      (∃ k ≤ j, LocalDone G u (compFS G u) ((dharStep G u)^[k] tmp)) →
      j + 2 ≤ fuel →
      ∃ tmp' cr', hprInner G u fuel tmp cr = some (true, tmp', cr') ∧
        HprInv G D tmp' cr' := by
  intro j
  induction j with
  | zero =>
    rintro fuel tmp cr hInv ⟨k, hk, hdone⟩ hfuel
    have hk0 : k = 0 := Nat.le_zero.mp hk
    subst hk0
    simp only [Function.iterate_zero, id] at hdone
    have hcr := hprFlag_of_localDone G hG D u hu hat tmp cr hInv hdone
    obtain ⟨f, rfl⟩ := Nat.exists_eq_succ_of_ne_zero (by omega : fuel ≠ 0)
    refine ⟨tmp, cr, ?_, hInv⟩
    simp only [hprInner]
    rw [if_pos hcr]
  | succ j ih =>
    rintro fuel tmp cr hInv ⟨k, hk, hdone⟩ hfuel
    obtain ⟨f, rfl⟩ := Nat.exists_eq_succ_of_ne_zero (by omega : fuel ≠ 0)
    by_cases hcr : cr u
    · refine ⟨tmp, cr, ?_, hInv⟩
      simp only [hprInner]
      rw [if_pos hcr]
    · -- the flag is unset, so the component is not yet fully burnt
      have hnotdone : ¬ LocalDone G u (compFS G u) tmp := by
        intro hd
        exact hcr (hprFlag_of_localDone G hG D u hu hat tmp cr hInv hd)
      by_cases hfs : burnFS G tmp u = []
      · exfalso
        apply hnotdone
        intro v hv
        have hvlt : v < gn G := Finset.mem_range.mp (compFS_subset_range G hG u hu hv)
        exact (burnFS_nil_iff G tmp u).mp hfs v hvlt
      · have hk0 : k ≠ 0 := by
          rintro rfl
          simp only [Function.iterate_zero, id] at hdone
          exact hnotdone hdone
        obtain ⟨k', rfl⟩ := Nat.exists_eq_succ_of_ne_zero hk0
        rw [Function.iterate_succ_apply] at hdone
        obtain ⟨tmp', cr', hrun, hInv'⟩ := ih f
          (fireList G tmp (burnFS G tmp u))
          (crUpd G (fireList G tmp (burnFS G tmp u)) cr)
          (hprInv_step G hG D u hu tmp cr hInv)
          ⟨k', by omega, hdone⟩ (by omega)
        refine ⟨tmp', cr', ?_, hInv'⟩
        simp only [hprInner]
        rw [if_neg (by simpa using hcr), if_neg hfs]
        exact hrun

/-- Totality of the inner loop on connected graphs: it always answers
within the termination bound. -/
theorem hprInner_total_connected (G : MyGraph) (hG : ValidGraph G)
    (D : ℕ → ℤ) (u : ℕ) (hu : u < gn G) :
    ∀ j fuel tmp cr, HprInv G D tmp cr →
      (∃ k ≤ j, burnFS G ((dharStep G u)^[k] tmp) u = []) →
      j + 2 ≤ fuel →
      ∃ b tmp' cr', hprInner G u fuel tmp cr = some (b, tmp', cr') := by
  intro j
  induction j with
  | zero =>
    rintro fuel tmp cr hInv ⟨k, hk, hfs⟩ hfuel
    have hk0 : k = 0 := Nat.le_zero.mp hk
    subst hk0
    simp only [Function.iterate_zero, id] at hfs
    obtain ⟨f, rfl⟩ := Nat.exists_eq_succ_of_ne_zero (by omega : fuel ≠ 0)
    by_cases hcr : cr u
    · exact ⟨true, tmp, cr, by simp only [hprInner]; rw [if_pos hcr]⟩
    · exact ⟨false, tmp, cr, by
        simp only [hprInner]
        rw [if_neg (by simpa using hcr), if_pos hfs]⟩
  | succ j ih =>
    rintro fuel tmp cr hInv ⟨k, hk, hfs⟩ hfuel
    obtain ⟨f, rfl⟩ := Nat.exists_eq_succ_of_ne_zero (by omega : fuel ≠ 0)
    by_cases hcr : cr u
    · exact ⟨true, tmp, cr, by simp only [hprInner]; rw [if_pos hcr]⟩
    · by_cases hfs0 : burnFS G tmp u = []
      · exact ⟨false, tmp, cr, by
          simp only [hprInner]
          rw [if_neg (by simpa using hcr), if_pos hfs0]⟩
      · have hk0 : k ≠ 0 := by
          rintro rfl
          simp only [Function.iterate_zero, id] at hfs
          exact hfs0 hfs
        obtain ⟨k', rfl⟩ := Nat.exists_eq_succ_of_ne_zero hk0
        rw [Function.iterate_succ_apply] at hfs
        obtain ⟨b, tmp', cr', hrun⟩ := ih f
          (fireList G tmp (burnFS G tmp u))
          (crUpd G (fireList G tmp (burnFS G tmp u)) cr)
          (hprInv_step G hG D u hu tmp cr hInv)
          ⟨k', by omega, hfs⟩ (by omega)
        refine ⟨b, tmp', cr', ?_⟩
        simp only [hprInner]
        rw [if_neg (by simpa using hcr), if_neg hfs0]
        exact hrun

/-- Canonical sufficient fuel for `has_positive_rank` (and for the rank
tests inside the search): local termination bound plus loop overhead. -/
def hprFuel (G : MyGraph) (D : ℕ → ℤ) : ℕ :=
  ((degSum G D).toNat + 1) ^ (gn G) + 2

theorem hprOuter_sound_true (G : MyGraph) (hG : ValidGraph G) (D : ℕ → ℤ) :
    ∀ (us : List ℕ) (fuel : ℕ) tmp cr, (∀ u ∈ us, u < gn G) →
      HprInv G D tmp cr → hprOuter G fuel us tmp cr = some true →
      ∀ u ∈ us, PosRankAt G D u := by
  intro us
  induction us with
  | nil => intro fuel tmp cr _ _ _ u hu; simp at hu
  | cons u us' ih =>
    intro fuel tmp cr hlt hInv hrun w hw
    have hu : u < gn G := hlt u (List.mem_cons_self _ _)
    rcases hres : hprInner G u fuel tmp cr with _ | ⟨b, tmp', cr'⟩
    · rw [hprOuter, hres] at hrun
      exact Option.noConfusion hrun
    · rcases b with _ | _
      · rw [hprOuter, hres] at hrun
        simp at hrun
      · obtain ⟨hInv', htrue, _⟩ :=
          hprInner_sound G hG D u hu fuel tmp cr true tmp' cr' hInv hres
        rw [hprOuter, hres] at hrun
        rcases List.mem_cons.mp hw with hw | hw
        · subst hw
          exact (hInv'.2.2.1 w (htrue rfl)).2
        · exact ih fuel tmp' cr' (fun x hx => hlt x (List.mem_cons_of_mem _ hx))
            hInv' hrun w hw

theorem hprOuter_sound_false (G : MyGraph) (hG : ValidGraph G) (D : ℕ → ℤ) :
    ∀ (us : List ℕ) (fuel : ℕ) tmp cr, (∀ u ∈ us, u < gn G) →
      HprInv G D tmp cr → hprOuter G fuel us tmp cr = some false →
      ∃ u ∈ us, ¬ PosRankAt G D u := by
  intro us
  induction us with
  | nil => intro fuel tmp cr _ _ hrun; simp [hprOuter] at hrun
  | cons u us' ih =>
    intro fuel tmp cr hlt hInv hrun
    have hu : u < gn G := hlt u (List.mem_cons_self _ _)
    rcases hres : hprInner G u fuel tmp cr with _ | ⟨b, tmp', cr'⟩
    · rw [hprOuter, hres] at hrun
      exact Option.noConfusion hrun
    · rcases b with _ | _
      · refine ⟨u, List.mem_cons_self _ _, ?_⟩
        exact hprInner_false_not_posRankAt G hG D u hu fuel tmp cr tmp' cr' hInv hres
      · obtain ⟨hInv', _, _⟩ :=
          hprInner_sound G hG D u hu fuel tmp cr true tmp' cr' hInv hres
        rw [hprOuter, hres] at hrun
        obtain ⟨w, hw, hnw⟩ := ih fuel tmp' cr'
          (fun x hx => hlt x (List.mem_cons_of_mem _ hx)) hInv' hrun
        exact ⟨w, List.mem_cons_of_mem _ hw, hnw⟩

theorem hprOuter_complete (G : MyGraph) (hG : ValidGraph G) (D : ℕ → ℤ)
    (fuel : ℕ) (hfuel : hprFuel G D ≤ fuel) :
    ∀ (us : List ℕ) tmp cr, (∀ u ∈ us, u < gn G) → HprInv G D tmp cr →
      (∀ u ∈ us, PosRankAt G D u) →
      hprOuter G fuel us tmp cr = some true := by
  intro us
  induction us with
  | nil => intro tmp cr _ _ _; rfl
  | cons u us' ih =>
    intro tmp cr hlt hInv hat
    have hu : u < gn G := hlt u (List.mem_cons_self _ _)
    have hdS : degSum G tmp = degSum G D := linEquiv_degSum G hG hInv.2.1
    obtain ⟨k, hk, hdone⟩ := dhar_localDone_exists G hG (compFS G u)
      (compFS_subset_range G hG u hu) (compFS_closed G hG u hu) u hu
      (compFS_self G hG u hu) (fun v hv => (mem_compFS G hG u hu v).mp hv)
      tmp hInv.1
    have hkJ : k ≤ ((degSum G D).toNat + 1) ^ (gn G) := by
      refine le_trans hk ?_
      rw [hdS]
      refine Nat.pow_le_pow_right (by omega) ?_
      calc (compFS G u).card ≤ (Finset.range (gn G)).card :=
            Finset.card_le_card (compFS_subset_range G hG u hu)
        _ = gn G := Finset.card_range _
    obtain ⟨tmp', cr', hrun, hInv'⟩ := hprInner_complete G hG D u hu
      (hat u (List.mem_cons_self _ _)) (((degSum G D).toNat + 1) ^ (gn G))
      fuel tmp cr hInv ⟨k, hkJ, hdone⟩ hfuel
    show hprOuter G fuel (u :: us') tmp cr = some true
    rw [hprOuter, hrun]
    exact ih tmp' cr' (fun x hx => hlt x (List.mem_cons_of_mem _ hx)) hInv'
      (fun x hx => hat x (List.mem_cons_of_mem _ hx))

theorem hprOuter_total_connected (G : MyGraph) (hG : ValidGraph G)
    (hc : Connected G) (D : ℕ → ℤ) (fuel : ℕ) (hfuel : hprFuel G D ≤ fuel) :
    ∀ (us : List ℕ) tmp cr, (∀ u ∈ us, u < gn G) → HprInv G D tmp cr →
      ∃ b, hprOuter G fuel us tmp cr = some b := by
  intro us
  induction us with
  | nil => intro tmp cr _ _; exact ⟨true, rfl⟩
  | cons u us' ih =>
    intro tmp cr hlt hInv
    have hu : u < gn G := hlt u (List.mem_cons_self _ _)
    have hdS : degSum G tmp = degSum G D := linEquiv_degSum G hG hInv.2.1
    obtain ⟨k, hk, hdone⟩ := dhar_localDone_exists G hG (Finset.range (gn G))
      (Finset.Subset.refl _) (range_closed G hG) u hu (Finset.mem_range.mpr hu)
      (fun v hv => connected_reach G hG hc hu (Finset.mem_range.mp hv))
      tmp hInv.1
    have hkJ : k ≤ ((degSum G D).toNat + 1) ^ (gn G) := by
      refine le_trans hk ?_
      rw [hdS, Finset.card_range]
    have hfs : burnFS G ((dharStep G u)^[k] tmp) u = [] := by
      rw [burnFS_nil_iff]
      intro v hv
      exact hdone v (Finset.mem_range.mpr hv)
    obtain ⟨b, tmp', cr', hrun⟩ := hprInner_total_connected G hG D u hu
      (((degSum G D).toNat + 1) ^ (gn G)) fuel tmp cr hInv
      ⟨k, hkJ, hfs⟩ hfuel
    rcases b with _ | _
    · refine ⟨false, ?_⟩
      rw [hprOuter, hrun]
    · obtain ⟨hInv', _, _⟩ :=
        hprInner_sound G hG D u hu fuel tmp cr true tmp' cr' hInv hrun
      obtain ⟨b', hb'⟩ := ih tmp' cr' (fun x hx => hlt x (List.mem_cons_of_mem _ hx)) hInv'
      refine ⟨b', ?_⟩
      rw [hprOuter, hrun]
      exact hb'

/-- Soundness: if `has_positive_rank` returns `true` (with any fuel), the
divisor has positive rank.  Holds on every valid graph. -/
theorem hpr_true_posRank (G : MyGraph) (hG : ValidGraph G) (D : ℕ → ℤ)
    (hD : EffOn G D) (fuel : ℕ) (h : hpr G D fuel = some true) : PosRank G D := by
  rw [posRank_iff_at]
  intro u hu
  exact hprOuter_sound_true G hG D (List.range (gn G)) fuel D (crInit G D)
    (fun x hx => List.mem_range.mp hx) (hprInv_init G D hD) h u (List.mem_range.mpr hu)

/-- Completeness: a positive-rank divisor makes `has_positive_rank` return
`true` with the canonical fuel.  Holds on every valid graph. -/
theorem posRank_hpr_true (G : MyGraph) (hG : ValidGraph G) (D : ℕ → ℤ)
    (hD : EffOn G D) (h : PosRank G D) (fuel : ℕ) (hfuel : hprFuel G D ≤ fuel) :
    hpr G D fuel = some true := by
  rw [posRank_iff_at] at h
  exact hprOuter_complete G hG D fuel hfuel (List.range (gn G)) D (crInit G D)
    (fun x hx => List.mem_range.mp hx) (hprInv_init G D hD)
    (fun u hu => h u (List.mem_range.mp hu))

/-- Termination of `has_positive_rank` on connected graphs. -/
theorem hpr_total_connected (G : MyGraph) (hG : ValidGraph G) (hc : Connected G)
    (D : ℕ → ℤ) (hD : EffOn G D) (fuel : ℕ) (hfuel : hprFuel G D ≤ fuel) :
    ∃ b, hpr G D fuel = some b :=
  hprOuter_total_connected G hG hc D fuel hfuel (List.range (gn G)) D (crInit G D)
    (fun x hx => List.mem_range.mp hx) (hprInv_init G D hD)

/-- **C3.** On a valid connected graph, `has_positive_rank(G, D)` terminates
for every effective divisor, and returns `true` iff `D - 1_u` is linearly
equivalent to an effective divisor for every vertex `u`. -/
theorem has_positive_rank_correct (G : MyGraph) (hG : ValidGraph G)
    (hc : Connected G) (D : ℕ → ℤ) (hD : EffOn G D) :
    ∃ fuel b, hpr G D fuel = some b ∧ (b = true ↔ PosRank G D) := by
  obtain ⟨b, hb⟩ := hpr_total_connected G hG hc D hD (hprFuel G D) (le_refl _)
  refine ⟨hprFuel G D, b, hb, ?_, ?_⟩
  · intro hbt
    exact hpr_true_posRank G hG D hD (hprFuel G D) (hbt ▸ hb)
  · intro hp
    have := posRank_hpr_true G hG D hD hp (hprFuel G D) (le_refl _)
    rw [hb] at this
    exact Option.some_inj.mp this

/-- Witness for C3 on `P_2` with one chip on each vertex. -/
theorem has_positive_rank_correct_witness :
    ∃ fuel b, hpr gP2 (fun _ => 1) fuel = some b ∧ (b = true ↔ PosRank gP2 (fun _ => 1)) :=
  has_positive_rank_correct gP2 ((validB_iff gP2).mpr (by decide))
    (connected_of_compFS gP2 ((validB_iff gP2).mpr (by decide)) (by decide) (by decide))
    (fun _ => 1) (fun x _ => by norm_num)

theorem posRank_mono (G : MyGraph) (D D' : ℕ → ℤ)
    (hmono : ∀ v < gn G, D v ≤ D' v)
    (h : PosRank G D) : PosRank G D' := by
  rw [posRank_iff_at] at h ⊢
  intro u hu
  obtain ⟨E, hEeff, hElin, hEu⟩ := h u hu
  obtain ⟨s, hs0, hs⟩ := hElin
  refine ⟨fun x => E x + (D' x - D x), ?_, ⟨s, hs0, ?_⟩, ?_⟩
  · intro x hx
    have h1 := hEeff x hx
    have h2 := hmono x hx
    show 0 ≤ E x + (D' x - D x)
    omega
  · intro x
    have h1 := hs x
    show E x + (D' x - D x) = D' x - lap G s x
    omega
  · have h2 := hmono u hu
    show 1 ≤ E u + (D' u - D u)
    omega

/-- **C8.** Positive rank is monotone at the level of the function: if
`has_positive_rank(G, D)` returns `true` and `D' ≥ D` pointwise (with `D'`
effective), then `has_positive_rank(G, D')` returns `true`. -/
theorem has_positive_rank_monotone (G : MyGraph) (hG : ValidGraph G)
    (D D' : ℕ → ℤ) (hD : EffOn G D) (hD' : EffOn G D')
    (hmono : ∀ v < gn G, D v ≤ D' v)
    (h : ∃ fuel, hpr G D fuel = some true) :
    ∃ fuel, hpr G D' fuel = some true := by
  obtain ⟨fuel, hf⟩ := h
  have hp : PosRank G D := hpr_true_posRank G hG D hD fuel hf
  have hp' : PosRank G D' := posRank_mono G D D' hmono hp
  exact ⟨hprFuel G D', posRank_hpr_true G hG D' hD' hp' (hprFuel G D') (le_refl _)⟩

/-- Witness for C8 on `P_2`: `[1,0]` has positive rank, hence so does
`[1,1]`. -/
theorem has_positive_rank_monotone_witness :
    ∃ fuel, hpr gP2 (fun _ => 1) fuel = some true :=
  has_positive_rank_monotone gP2 ((validB_iff gP2).mpr (by decide))
    (fun x => if x = 0 then 1 else 0) (fun _ => 1)
    (by intro x _; simp only []; split <;> norm_num) (fun x _ => by norm_num)
    (by intro v _; simp only []; split <;> norm_num)
    ⟨3, by decide⟩

/-! ## C10: the working divisor of `has_positive_rank` stays effective -/

/-- The states of `has_positive_rank`'s loops at loop boundaries: `u` is the
current vertex of the outer `for`, `tmp` the working divisor and `cr` the
can-reach flags.  `fire` is one pass of the inner `while` body, `next`
advances the outer loop when the flag for `u` is set. -/
inductive HprReach (G : MyGraph) (D : ℕ → ℤ) : ℕ → (ℕ → ℤ) → (ℕ → Bool) → Prop
  | init : HprReach G D 0 D (crInit G D)
  | fire (u : ℕ) (tmp : ℕ → ℤ) (cr : ℕ → Bool) :
      HprReach G D u tmp cr → u < gn G → cr u = false → burnFS G tmp u ≠ [] →
      HprReach G D u (fireList G tmp (burnFS G tmp u))
        (crUpd G (fireList G tmp (burnFS G tmp u)) cr)
  | next (u : ℕ) (tmp : ℕ → ℤ) (cr : ℕ → Bool) :
      HprReach G D u tmp cr → u < gn G → cr u = true → HprReach G D (u + 1) tmp cr

/-- **C10.** Along every execution of `has_positive_rank` on a valid graph
with an effective input divisor, the working divisor is non-negative on
every vertex at every loop boundary — before each inner `burn` call and
after each complete firing — so the non-negativity precondition of every
inner `burn` call holds. -/
theorem hpr_working_divisor_effective (G : MyGraph) (hG : ValidGraph G)
    (D : ℕ → ℤ) (hD : EffOn G D) :
    ∀ u tmp cr, HprReach G D u tmp cr → ∀ v < gn G, 0 ≤ tmp v := by
  intro u tmp cr hreach
  induction hreach with
  | init => exact hD
  | fire u tmp cr _ hu _ _ ih => exact fire_burnFS_eff G hG tmp u hu ih
  | next u tmp cr _ _ _ ih => exact ih

/-- Witness for C10: the claim applied at the initial state on `P_2`,
evaluated at vertex 0. -/
theorem hpr_working_divisor_effective_witness :
    0 ≤ (fun _ => (1 : ℤ)) 0 :=
  hpr_working_divisor_effective gP2 ((validB_iff gP2).mpr (by decide))
    (fun _ => 1) (fun x _ => by norm_num) 0 (fun _ => 1) (crInit gP2 (fun _ => 1))
    HprReach.init 0 (by decide)

/-- The runs of the inner loop stay within `HprReach` (bridging the
transition system of C10 to the fuel-based `hprInner`). -/
theorem hprInner_preserves_reach (G : MyGraph) (D : ℕ → ℤ) (u : ℕ) (hu : u < gn G) :
    ∀ fuel tmp cr b tmp' cr', HprReach G D u tmp cr →
      hprInner G u fuel tmp cr = some (b, tmp', cr') →
      HprReach G D u tmp' cr' := by
  intro fuel
  induction fuel with
  | zero => intro tmp cr b tmp' cr' _ h; simp [hprInner] at h
  | succ f ih =>
    intro tmp cr b tmp' cr' hreach h
    simp only [hprInner] at h
    by_cases hcr : cr u
    · rw [if_pos hcr] at h
      have h1 := Option.some_inj.mp h
      have h2 : tmp = tmp' := congrArg (fun p => p.2.1) h1
      have h3 : cr = cr' := congrArg (fun p => p.2.2) h1
      exact h2 ▸ h3 ▸ hreach
    · rw [if_neg hcr] at h
      by_cases hfs : burnFS G tmp u = []
      · rw [if_pos hfs] at h
        have h1 := Option.some_inj.mp h
        have h2 : tmp = tmp' := congrArg (fun p => p.2.1) h1
        have h3 : cr = cr' := congrArg (fun p => p.2.2) h1
        exact h2 ▸ h3 ▸ hreach
      · rw [if_neg hfs] at h
        exact ih _ _ b tmp' cr'
          (HprReach.fire u tmp cr hreach hu (by simpa using hcr) hfs) h

/-! ## The search engine of divisors.h

`find_positive_rank_divisor` and
`find_all_positive_rank_v0_reduced_divisors` build the partial divisor
`__partial_divisor` position by position (at depth `finished_vertices` the
chip count runs from `remaining_chips` down to `stop`, where `stop = 1` at
vertex 0 and `0` elsewhere), and at a full leaf evaluate the short-circuited
test `remaining == 0 && pd[0] > 0 && burn(G,pd,0) == 0 &&
has_positive_rank(G,pd)`.  The partial divisor is modelled as the list of
chip counts assigned so far (the global array is zero-initialised, which is
what `getD _ 0` mirrors); `fn` of the find-all variant is modelled by
collecting the accepted divisors in order. -/

/-- Read the partial-divisor buffer as a divisor. -/
def divOf (pd : List ℤ) : ℕ → ℤ := fun x => pd.getD x 0

/-- `stop` of the source: vertex 0 must keep at least one chip. -/
def stopAt (fv : ℕ) : ℕ := if fv = 0 then 1 else 0

/-- The descending inner `for (int i = remaining_chips; i >= stop; i--)`
loop of `find_positive_rank_divisor`, with C++ short-circuit `return true`
(`k` counts the remaining loop iterations; iteration `k+1` handles
`i = stop + k`). -/
def optFirst (g : ℕ → Option Bool) : ℕ → Option Bool
  | 0 => some false
  | k + 1 =>
    match g k with
    | none => none
    | some true => some true
    | some false => optFirst g k

/-- Same loop for `find_all_positive_rank_v0_reduced_divisors`: no early
exit, results are concatenated in visit order. -/
def optConcat (g : ℕ → Option (List (List ℤ))) : ℕ → Option (List (List ℤ))
  | 0 => some []
  | k + 1 =>
    match g k with
    | none => none
    | some L =>
      match optConcat g k with
      | none => none
      | some M => some (L ++ M)

/-- `find_positive_rank_divisor(G, chips, fv)` with partial divisor `pd`
(`d` is the number of positions still to fill, `gn G - fv`). -/
def fprdAux (G : MyGraph) (fuel : ℕ) : ℕ → ℕ → ℕ → List ℤ → Option Bool
  | 0, chips, _, pd =>
    if chips = 0 ∧ 0 < divOf pd 0 ∧ burnFS G (divOf pd) 0 = [] then
      hpr G (divOf pd) fuel
    else some false
  | d + 1, chips, fv, pd =>
    optFirst (fun k => fprdAux G fuel d (chips - (stopAt fv + k)) (fv + 1)
      (pd ++ [((stopAt fv + k : ℕ) : ℤ)])) (chips + 1 - stopAt fv)

def fprdRun (G : MyGraph) (chips fuel : ℕ) : Option Bool :=
  fprdAux G fuel (gn G) chips 0 []

/-- `find_all_positive_rank_v0_reduced_divisors(G, chips, fn, fv)`; the
returned list holds (in call order) the divisors passed to `fn`. -/
def farAux (G : MyGraph) (fuel : ℕ) : ℕ → ℕ → ℕ → List ℤ → Option (List (List ℤ))
  | 0, chips, _, pd =>
    if chips = 0 ∧ 0 < divOf pd 0 ∧ burnFS G (divOf pd) 0 = [] then
      match hpr G (divOf pd) fuel with
      | none => none
      | some true => some [pd]
      | some false => some []
    else some []
  | d + 1, chips, fv, pd =>
    optConcat (fun k => farAux G fuel d (chips - (stopAt fv + k)) (fv + 1)
      (pd ++ [((stopAt fv + k : ℕ) : ℤ)])) (chips + 1 - stopAt fv)

def farRun (G : MyGraph) (chips fuel : ℕ) : Option (List (List ℤ)) :=
  farAux G fuel (gn G) chips 0 []

/-- The `for (deg = 1; ; deg++)` loop of `find_gonality`, with its
`assert(deg <= G.n)` after each failed degree modelled as `none`. -/
def fgLoop (G : MyGraph) (fuel : ℕ) : ℕ → ℕ → Option ℕ
  | 0, _ => none
  | b + 1, dg =>
    match fprdRun G dg fuel with
    | none => none
    | some true => some dg
    | some false => if dg ≤ gn G then fgLoop G fuel b (dg + 1) else none

def find_gonality (G : MyGraph) (fuel b : ℕ) : Option ℕ := fgLoop G fuel b 1

/-- Canonical fuel for the rank tests inside the search, in terms of the
requested degree. -/
def hprFuelD (G : MyGraph) (d : ℕ) : ℕ := (d + 1) ^ gn G + 2

theorem divOf_append_lt (pd : List ℤ) (a : ℤ) (x : ℕ) (hx : x < pd.length) :
    divOf (pd ++ [a]) x = divOf pd x := by
  unfold divOf
  exact List.getD_append pd [a] 0 x hx

theorem divOf_append_eq (pd : List ℤ) (a : ℤ) :
    divOf (pd ++ [a]) pd.length = a := by
  unfold divOf
  rw [List.getD_append_right pd [a] 0 pd.length (le_refl _)]
  simp

theorem divOf_default (pd : List ℤ) (x : ℕ) (hx : pd.length ≤ x) :
    divOf pd x = 0 := by
  unfold divOf
  exact List.getD_eq_default _ _ hx

theorem sum_range_getD (l : List ℤ) :
    ∑ i ∈ Finset.range l.length, l.getD i 0 = l.sum := by
  induction l with
  | nil => simp
  | cons a t ih =>
    rw [List.length_cons, Finset.sum_range_succ']
    have h1 : ∀ i ∈ Finset.range t.length, (a :: t).getD (i + 1) 0 = t.getD i 0 :=
      fun i _ => rfl
    rw [Finset.sum_congr rfl h1, ih]
    show t.sum + a = (a :: t).sum
    rw [List.sum_cons]
    ring

theorem degSum_divOf (G : MyGraph) (pd : List ℤ) (hlen : pd.length = gn G) :
    degSum G (divOf pd) = pd.sum := by
  unfold degSum divOf
  rw [← hlen]
  exact sum_range_getD pd

theorem effOn_divOf (G : MyGraph) (pd : List ℤ) (h : ∀ a ∈ pd, 0 ≤ a) :
    EffOn G (divOf pd) := by
  intro x _
  unfold divOf
  by_cases hx : x < pd.length
  · rw [List.getD_eq_getElem _ _ hx]
    exact h _ (List.getElem_mem hx)
  · rw [List.getD_eq_default _ _ (le_of_not_lt hx)]

theorem divOf_entries_nonneg (G : MyGraph) (pd : List ℤ) (hlen : pd.length = gn G)
    (h : EffOn G (divOf pd)) : ∀ a ∈ pd, 0 ≤ a := by
  intro a ha
  obtain ⟨i, hi, rfl⟩ := List.mem_iff_getElem.mp ha
  have hlt : i < gn G := hlen ▸ hi
  have := h i hlt
  unfold divOf at this
  rwa [List.getD_eq_getElem _ _ hi] at this

/-- `burn` reads the divisor only at the vertices of `G`. -/
theorem Burns_congr_lt (G : MyGraph) (start : ℕ) (D1 D2 : ℕ → ℤ)
    (h : ∀ v < gn G, D1 v = D2 v) :
    ∀ v, Burns G D1 start v → Burns G D2 start v := by
  intro v hv
  induction hv with
  | init => exact Burns.init
  | step v S hvn hS hv ih =>
    refine Burns.step v S hvn (fun w hw => ih w hw) ?_
    rw [← h v hvn]
    exact hv

theorem burnPushed_congr_lt (G : MyGraph) (hG : ValidGraph G) (start : ℕ)
    (D1 D2 : ℕ → ℤ) (hagree : ∀ v < gn G, D1 v = D2 v)
    (h1 : ∀ v < gn G, v ≠ start → 0 ≤ D1 v) :
    burnPushed G D1 start = burnPushed G D2 start := by
  have h2 : ∀ v < gn G, v ≠ start → 0 ≤ D2 v := by
    intro v hv hvs
    rw [← hagree v hv]
    exact h1 v hv hvs
  ext v
  rw [mem_burnPushed_iff G D1 start hG h1 v, mem_burnPushed_iff G D2 start hG h2 v]
  exact ⟨Burns_congr_lt G start D1 D2 hagree v,
    Burns_congr_lt G start D2 D1 (fun w hw => (hagree w hw).symm) v⟩

theorem burnFS_congr_lt (G : MyGraph) (hG : ValidGraph G) (start : ℕ)
    (D1 D2 : ℕ → ℤ) (hagree : ∀ v < gn G, D1 v = D2 v)
    (h1 : ∀ v < gn G, v ≠ start → 0 ≤ D1 v) :
    burnFS G D1 start = burnFS G D2 start := by
  unfold burnFS
  rw [burnPushed_congr_lt G hG start D1 D2 hagree h1]

theorem posRank_congr_lt (G : MyGraph) (D1 D2 : ℕ → ℤ)
    (hagree : ∀ v < gn G, D1 v = D2 v) (h : PosRank G D1) : PosRank G D2 := by
  rw [posRank_iff_at] at h ⊢
  intro u hu
  obtain ⟨E, hEeff, hElin, hEu⟩ := h u hu
  obtain ⟨s, hs0, hs⟩ := hElin
  refine ⟨fun x => E x + (D2 x - D1 x), ?_, ⟨s, hs0, ?_⟩, ?_⟩
  · intro x hx
    have h1 := hEeff x hx
    have h2 := hagree x hx
    show 0 ≤ E x + (D2 x - D1 x)
    omega
  · intro x
    have h1 := hs x
    show E x + (D2 x - D1 x) = D2 x - lap G s x
    omega
  · have h2 := hagree u hu
    show 1 ≤ E u + (D2 u - D1 u)
    omega

theorem posRank_linEquiv (G : MyGraph) (D D' : ℕ → ℤ) (hlin : LinEquiv G D D')
    (h : PosRank G D) : PosRank G D' := by
  rw [posRank_iff_at] at h ⊢
  intro u hu
  obtain ⟨E, hEeff, hElin, hEu⟩ := h u hu
  exact ⟨E, hEeff, linEquiv_trans G (linEquiv_symm G hlin) hElin, hEu⟩

theorem optConcat_spec (g : ℕ → Option (List (List ℤ))) (Q : ℕ → List ℤ → Prop) :
    ∀ K, (∀ k < K, ∃ L, g k = some L ∧ ∀ q, q ∈ L ↔ Q k q) →
      ∃ M, optConcat g K = some M ∧ ∀ q, q ∈ M ↔ ∃ k < K, Q k q := by
  intro K
  induction K with
  | zero =>
    intro _
    refine ⟨[], rfl, fun q => ?_⟩
    simp
  | succ K ih =>
    intro h
    obtain ⟨L, hL, hLq⟩ := h K (Nat.lt_succ_self K)
    obtain ⟨M, hM, hMq⟩ := ih (fun k hk => h k (Nat.lt_succ_of_lt hk))
    refine ⟨L ++ M, ?_, ?_⟩
    · show optConcat g (K + 1) = some (L ++ M)
      simp only [optConcat, hL, hM]
    · intro q
      rw [List.mem_append, hLq q, hMq q]
      constructor
      · rintro (hq | ⟨k, hk, hq⟩)
        · exact ⟨K, Nat.lt_succ_self K, hq⟩
        · exact ⟨k, Nat.lt_succ_of_lt hk, hq⟩
      · rintro ⟨k, hk, hq⟩
        rcases Nat.lt_succ_iff_lt_or_eq.mp hk with hk | rfl
        · exact Or.inr ⟨k, hk, hq⟩
        · exact Or.inl hq

theorem optFirst_spec (g : ℕ → Option Bool) (Q : ℕ → Prop) :
    ∀ K, (∀ k < K, ∃ b, g k = some b ∧ (b = true ↔ Q k)) →
      ∃ b, optFirst g K = some b ∧ (b = true ↔ ∃ k < K, Q k) := by
  intro K
  induction K with
  | zero =>
    intro _
    refine ⟨false, rfl, ?_⟩
    simp
  | succ K ih =>
    intro h
    obtain ⟨b, hb, hbq⟩ := h K (Nat.lt_succ_self K)
    rcases b with _ | _
    · obtain ⟨b', hb', hb'q⟩ := ih (fun k hk => h k (Nat.lt_succ_of_lt hk))
      refine ⟨b', ?_, ?_⟩
      · show optFirst g (K + 1) = some b'
        simp only [optFirst, hb]
        exact hb'
      · rw [hb'q]
        constructor
        · rintro ⟨k, hk, hq⟩
          exact ⟨k, Nat.lt_succ_of_lt hk, hq⟩
        · rintro ⟨k, hk, hq⟩
          rcases Nat.lt_succ_iff_lt_or_eq.mp hk with hk | rfl
          · exact ⟨k, hk, hq⟩
          · exact absurd (hbq.mpr hq) (by simp)
    · refine ⟨true, ?_, ?_⟩
      · show optFirst g (K + 1) = some true
        simp only [optFirst, hb]
      · simp only [true_iff]
        exact ⟨K, Nat.lt_succ_self K, hbq.mp rfl⟩

/-- The leaf predicate of the search, stated mathematically: at least one
chip on vertex 0, v0-reduced (empty burn), and positive rank. -/
def AcceptDiv (G : MyGraph) (q : List ℤ) : Prop :=
  0 < divOf q 0 ∧ burnFS G (divOf q) 0 = [] ∧ PosRank G (divOf q)

/-- At a leaf passing the cheap guards, the graph is connected (everything
got burnt from vertex 0), so the rank test terminates. -/
theorem leaf_connected (G : MyGraph) (hG : ValidGraph G) (pd : List ℤ)
    (hnn : ∀ a ∈ pd, 0 ≤ a) (hfs : burnFS G (divOf pd) 0 = []) : Connected G := by
  intro v hv
  have heff : EffOn G (divOf pd) := effOn_divOf G pd hnn
  have hB : Burns G (divOf pd) 0 v :=
    (mem_burnPushed_iff G (divOf pd) 0 hG (fun w hw _ => heff w hw) v).mp
      ((burnFS_nil_iff G (divOf pd) 0).mp hfs v hv)
  exact Burns_to_reach G hG (divOf pd) 0 (fun w hw _ => heff w hw) v hB

theorem farAux_zero (G : MyGraph) (fuel chips fv : ℕ) (pd : List ℤ) :
    farAux G fuel 0 chips fv pd =
      if chips = 0 ∧ 0 < divOf pd 0 ∧ burnFS G (divOf pd) 0 = [] then
        match hpr G (divOf pd) fuel with
        | none => none
        | some true => some [pd]
        | some false => some []
      else some [] := rfl

theorem farAux_succ (G : MyGraph) (fuel d chips fv : ℕ) (pd : List ℤ) :
    farAux G fuel (d + 1) chips fv pd =
      optConcat (fun k => farAux G fuel d (chips - (stopAt fv + k)) (fv + 1)
        (pd ++ [((stopAt fv + k : ℕ) : ℤ)])) (chips + 1 - stopAt fv) := rfl

theorem farAux_spec (G : MyGraph) (hG : ValidGraph G) (fuel : ℕ) :
    ∀ (d chips fv : ℕ) (pd : List ℤ), pd.length + d = gn G → pd.length = fv →
      (∀ a ∈ pd, 0 ≤ a) →
      (((pd.sum + (chips : ℤ)).toNat + 1) ^ gn G + 2 ≤ fuel) →
      ∃ L, farAux G fuel d chips fv pd = some L ∧
        ∀ q, q ∈ L ↔ ∃ ext : List ℤ, q = pd ++ ext ∧ ext.length = d ∧
          (∀ a ∈ ext, 0 ≤ a) ∧ ext.sum = (chips : ℤ) ∧ AcceptDiv G q := by
  intro d
  induction d with
  | zero =>
    intro chips fv pd hlen hfv hnn hfuel
    by_cases hg : chips = 0 ∧ 0 < divOf pd 0 ∧ burnFS G (divOf pd) 0 = []
    · obtain ⟨hch, hpd0, hfs⟩ := hg
      subst hch
      have heff : EffOn G (divOf pd) := effOn_divOf G pd hnn
      have hc : Connected G := leaf_connected G hG pd hnn hfs
      have hglen : pd.length = gn G := by omega
      have hdeg : degSum G (divOf pd) = pd.sum := degSum_divOf G pd hglen
      have hfa : hprFuel G (divOf pd) ≤ fuel := by
        unfold hprFuel
        rw [hdeg]
        simpa using hfuel
      obtain ⟨b, hb⟩ := hpr_total_connected G hG hc (divOf pd) heff fuel hfa
      rcases b with _ | _
      · refine ⟨[], ?_, ?_⟩
        · rw [farAux_zero, if_pos ⟨rfl, hpd0, hfs⟩, hb]
        · intro q
          simp only [List.not_mem_nil, false_iff]
          rintro ⟨ext, hq, hext0, _, _, _, _, hposr⟩
          have hext : ext = [] := List.length_eq_zero.mp hext0
          subst hext
          rw [List.append_nil] at hq
          subst hq
          have ht := posRank_hpr_true G hG (divOf q) heff hposr fuel hfa
          rw [ht] at hb
          exact Bool.noConfusion (Option.some_inj.mp hb)
      · refine ⟨[pd], ?_, ?_⟩
        · rw [farAux_zero, if_pos ⟨rfl, hpd0, hfs⟩, hb]
        · intro q
          constructor
          · intro hq
            rw [List.mem_singleton] at hq
            subst hq
            refine ⟨[], by simp, rfl, by simp, by simp, hpd0, hfs, ?_⟩
            exact hpr_true_posRank G hG (divOf q) heff fuel hb
          · rintro ⟨ext, hq, hext0, _, _, _, _, _⟩
            have hext : ext = [] := List.length_eq_zero.mp hext0
            subst hext
            rw [List.append_nil] at hq
            subst hq
            exact List.mem_singleton.mpr rfl
    · refine ⟨[], ?_, ?_⟩
      · rw [farAux_zero, if_neg hg]
      · intro q
        simp only [List.not_mem_nil, false_iff]
        rintro ⟨ext, hq, hext0, _, hsum, hq0, hqfs, _⟩
        have hext : ext = [] := List.length_eq_zero.mp hext0
        subst hext
        rw [List.append_nil] at hq
        subst hq
        apply hg
        have hch : chips = 0 := by
          rw [List.sum_nil] at hsum
          omega
        exact ⟨hch, hq0, hqfs⟩
  | succ d ih =>
    intro chips fv pd hlen hfv hnn hfuel
    have hIH : ∀ k < chips + 1 - stopAt fv,
        ∃ L, farAux G fuel d (chips - (stopAt fv + k)) (fv + 1)
            (pd ++ [((stopAt fv + k : ℕ) : ℤ)]) = some L ∧
          ∀ q, q ∈ L ↔ ∃ ext : List ℤ, q = (pd ++ [((stopAt fv + k : ℕ) : ℤ)]) ++ ext ∧
            ext.length = d ∧ (∀ a ∈ ext, 0 ≤ a) ∧
            ext.sum = ((chips - (stopAt fv + k) : ℕ) : ℤ) ∧ AcceptDiv G q := by
      intro k hk
      have hik : stopAt fv + k ≤ chips := by omega
      refine ih (chips - (stopAt fv + k)) (fv + 1) (pd ++ [((stopAt fv + k : ℕ) : ℤ)])
        (by simp; omega) (by simp; omega) ?_ ?_
      · intro a ha
        rcases List.mem_append.mp ha with ha | ha
        · exact hnn a ha
        · rw [List.mem_singleton] at ha
          subst ha
          exact Int.natCast_nonneg _
      · rw [List.sum_append, List.sum_singleton]
        have hcast : (pd.sum + ((stopAt fv + k : ℕ) : ℤ))
            + ((chips - (stopAt fv + k) : ℕ) : ℤ) = pd.sum + (chips : ℤ) := by
          push_cast [Nat.cast_sub hik]
          ring
        rw [hcast]
        exact hfuel
    obtain ⟨M, hM, hMq⟩ := optConcat_spec _
      (fun k q => ∃ ext : List ℤ, q = (pd ++ [((stopAt fv + k : ℕ) : ℤ)]) ++ ext ∧
        ext.length = d ∧ (∀ a ∈ ext, 0 ≤ a) ∧
        ext.sum = ((chips - (stopAt fv + k) : ℕ) : ℤ) ∧ AcceptDiv G q)
      (chips + 1 - stopAt fv) hIH
    refine ⟨M, ?_, ?_⟩
    · rw [farAux_succ]
      exact hM
    · intro q
      rw [hMq q]
      constructor
      · rintro ⟨k, hk, ext', hq, hext'len, hext'nn, hext'sum, hacc⟩
        have hik : stopAt fv + k ≤ chips := by omega
        refine ⟨((stopAt fv + k : ℕ) : ℤ) :: ext', ?_, by simp [hext'len], ?_, ?_, hacc⟩
        · rw [hq, List.append_assoc]
          rfl
        · intro a ha
          rcases List.mem_cons.mp ha with ha | ha
          · subst ha; exact Int.natCast_nonneg _
          · exact hext'nn a ha
        · rw [List.sum_cons, hext'sum]
          push_cast [Nat.cast_sub hik]
          ring
      · rintro ⟨ext, hq, hextlen, hextnn, hextsum, hacc⟩
        rcases ext with _ | ⟨e, ext''⟩
        · simp at hextlen
        have he0 : 0 ≤ e := hextnn e (List.mem_cons_self _ _)
        have hsum'' : 0 ≤ ext''.sum :=
          List.sum_nonneg (fun a ha => hextnn a (List.mem_cons_of_mem _ ha))
        have hsumeq : e + ext''.sum = (chips : ℤ) := by
          rw [List.sum_cons] at hextsum
          exact hextsum
        have hechips : e ≤ (chips : ℤ) := by omega
        have hstop : (stopAt fv : ℤ) ≤ e := by
          unfold stopAt
          by_cases hfv0 : fv = 0
          · rw [if_pos hfv0]
            have hpdnil : pd = [] := List.length_eq_zero.mp (by omega)
            subst hpdnil
            have hq0 : divOf q 0 = e := by
              rw [hq]
              rfl
            have hacc1 := hacc.1
            rw [hq0] at hacc1
            omega
          · rw [if_neg hfv0]
            simpa using he0
        have he : ((e.toNat : ℕ) : ℤ) = e := Int.toNat_of_nonneg he0
        have hichips : e.toNat ≤ chips := by omega
        have histop : stopAt fv ≤ e.toNat := by omega
        have hii : stopAt fv + (e.toNat - stopAt fv) = e.toNat := by omega
        refine ⟨e.toNat - stopAt fv, by omega, ext'', ?_, ?_, ?_, ?_, hacc⟩
        · rw [hq, hii, he, List.append_assoc]
          rfl
        · simpa using hextlen
        · exact fun a ha => hextnn a (List.mem_cons_of_mem _ ha)
        · rw [hii, Nat.cast_sub hichips, he]
          omega

theorem fprdAux_zero (G : MyGraph) (fuel chips fv : ℕ) (pd : List ℤ) :
    fprdAux G fuel 0 chips fv pd =
      if chips = 0 ∧ 0 < divOf pd 0 ∧ burnFS G (divOf pd) 0 = [] then
        hpr G (divOf pd) fuel
      else some false := rfl

theorem fprdAux_succ (G : MyGraph) (fuel d chips fv : ℕ) (pd : List ℤ) :
    fprdAux G fuel (d + 1) chips fv pd =
      optFirst (fun k => fprdAux G fuel d (chips - (stopAt fv + k)) (fv + 1)
        (pd ++ [((stopAt fv + k : ℕ) : ℤ)])) (chips + 1 - stopAt fv) := rfl

theorem fprdAux_spec (G : MyGraph) (hG : ValidGraph G) (fuel : ℕ) :
    ∀ (d chips fv : ℕ) (pd : List ℤ), pd.length + d = gn G → pd.length = fv →
      (∀ a ∈ pd, 0 ≤ a) →
      (((pd.sum + (chips : ℤ)).toNat + 1) ^ gn G + 2 ≤ fuel) →
      ∃ b, fprdAux G fuel d chips fv pd = some b ∧
        (b = true ↔ ∃ ext : List ℤ, ext.length = d ∧ (∀ a ∈ ext, 0 ≤ a) ∧
          ext.sum = (chips : ℤ) ∧ AcceptDiv G (pd ++ ext)) := by
  intro d
  induction d with
  | zero =>
    intro chips fv pd hlen hfv hnn hfuel
    by_cases hg : chips = 0 ∧ 0 < divOf pd 0 ∧ burnFS G (divOf pd) 0 = []
    · obtain ⟨hch, hpd0, hfs⟩ := hg
      subst hch
      have heff : EffOn G (divOf pd) := effOn_divOf G pd hnn
      have hc : Connected G := leaf_connected G hG pd hnn hfs
      have hglen : pd.length = gn G := by omega
      have hdeg : degSum G (divOf pd) = pd.sum := degSum_divOf G pd hglen
      have hfa : hprFuel G (divOf pd) ≤ fuel := by
        unfold hprFuel
        rw [hdeg]
        simpa using hfuel
      obtain ⟨b, hb⟩ := hpr_total_connected G hG hc (divOf pd) heff fuel hfa
      refine ⟨b, ?_, ?_⟩
      · rw [fprdAux_zero, if_pos ⟨rfl, hpd0, hfs⟩, hb]
      · constructor
        · intro hbt
          subst hbt
          refine ⟨[], rfl, by simp, by simp, ?_, ?_, ?_⟩
          · rw [List.append_nil]; exact hpd0
          · rw [List.append_nil]; exact hfs
          · rw [List.append_nil]
            exact hpr_true_posRank G hG (divOf pd) heff fuel hb
        · rintro ⟨ext, hext0, _, _, hacc⟩
          have hext : ext = [] := List.length_eq_zero.mp hext0
          subst hext
          rw [List.append_nil] at hacc
          have ht := posRank_hpr_true G hG (divOf pd) heff hacc.2.2 fuel hfa
          rw [ht] at hb
          exact (Option.some_inj.mp hb).symm
    · refine ⟨false, ?_, ?_⟩
      · rw [fprdAux_zero, if_neg hg]
      · simp only [Bool.false_eq_true, false_iff]
        rintro ⟨ext, hext0, _, hsum, hacc⟩
        have hext : ext = [] := List.length_eq_zero.mp hext0
        subst hext
        rw [List.append_nil] at hacc
        apply hg
        have hch : chips = 0 := by
          rw [List.sum_nil] at hsum
          omega
        exact ⟨hch, hacc.1, hacc.2.1⟩
  | succ d ih =>
    intro chips fv pd hlen hfv hnn hfuel
    have hIH : ∀ k < chips + 1 - stopAt fv,
        ∃ b, fprdAux G fuel d (chips - (stopAt fv + k)) (fv + 1)
            (pd ++ [((stopAt fv + k : ℕ) : ℤ)]) = some b ∧
          (b = true ↔ ∃ ext : List ℤ, ext.length = d ∧ (∀ a ∈ ext, 0 ≤ a) ∧
            ext.sum = ((chips - (stopAt fv + k) : ℕ) : ℤ) ∧
            AcceptDiv G ((pd ++ [((stopAt fv + k : ℕ) : ℤ)]) ++ ext)) := by
      intro k hk
      have hik : stopAt fv + k ≤ chips := by omega
      refine ih (chips - (stopAt fv + k)) (fv + 1) (pd ++ [((stopAt fv + k : ℕ) : ℤ)])
        (by simp; omega) (by simp; omega) ?_ ?_
      · intro a ha
        rcases List.mem_append.mp ha with ha | ha
        · exact hnn a ha
        · rw [List.mem_singleton] at ha
          subst ha
          exact Int.natCast_nonneg _
      · rw [List.sum_append, List.sum_singleton]
        have hcast : (pd.sum + ((stopAt fv + k : ℕ) : ℤ))
            + ((chips - (stopAt fv + k) : ℕ) : ℤ) = pd.sum + (chips : ℤ) := by
          push_cast [Nat.cast_sub hik]
          ring
        rw [hcast]
        exact hfuel
    obtain ⟨b, hb, hbq⟩ := optFirst_spec _
      (fun k => ∃ ext : List ℤ, ext.length = d ∧ (∀ a ∈ ext, 0 ≤ a) ∧
        ext.sum = ((chips - (stopAt fv + k) : ℕ) : ℤ) ∧
        AcceptDiv G ((pd ++ [((stopAt fv + k : ℕ) : ℤ)]) ++ ext))
      (chips + 1 - stopAt fv) hIH
    refine ⟨b, ?_, ?_⟩
    · rw [fprdAux_succ]
      exact hb
    · rw [hbq]
      constructor
      · rintro ⟨k, hk, ext', hext'len, hext'nn, hext'sum, hacc⟩
        have hik : stopAt fv + k ≤ chips := by omega
        refine ⟨((stopAt fv + k : ℕ) : ℤ) :: ext', by simp [hext'len], ?_, ?_, ?_⟩
        · intro a ha
          rcases List.mem_cons.mp ha with ha | ha
          · subst ha; exact Int.natCast_nonneg _
          · exact hext'nn a ha
        · rw [List.sum_cons, hext'sum]
          push_cast [Nat.cast_sub hik]
          ring
        · have hlist : (pd ++ [((stopAt fv + k : ℕ) : ℤ)]) ++ ext'
              = pd ++ ((stopAt fv + k : ℕ) : ℤ) :: ext' := by
            rw [List.append_assoc]
            rfl
          rw [← hlist]
          exact hacc
      · rintro ⟨ext, hextlen, hextnn, hextsum, hacc⟩
        rcases ext with _ | ⟨e, ext''⟩
        · simp at hextlen
        have he0 : 0 ≤ e := hextnn e (List.mem_cons_self _ _)
        have hsum'' : 0 ≤ ext''.sum :=
          List.sum_nonneg (fun a ha => hextnn a (List.mem_cons_of_mem _ ha))
        have hsumeq : e + ext''.sum = (chips : ℤ) := by
          rw [List.sum_cons] at hextsum
          exact hextsum
        have hechips : e ≤ (chips : ℤ) := by omega
        have hstop : (stopAt fv : ℤ) ≤ e := by
          unfold stopAt
          by_cases hfv0 : fv = 0
          · rw [if_pos hfv0]
            have hpdnil : pd = [] := List.length_eq_zero.mp (by omega)
            subst hpdnil
            have hq0 : divOf ([] ++ e :: ext'') 0 = e := rfl
            have hacc1 := hacc.1
            rw [hq0] at hacc1
            omega
          · rw [if_neg hfv0]
            simpa using he0
        have he : ((e.toNat : ℕ) : ℤ) = e := Int.toNat_of_nonneg he0
        have hichips : e.toNat ≤ chips := by omega
        have histop : stopAt fv ≤ e.toNat := by omega
        have hii : stopAt fv + (e.toNat - stopAt fv) = e.toNat := by omega
        refine ⟨e.toNat - stopAt fv, by omega, ext'', ?_, ?_, ?_, ?_⟩
        · simpa using hextlen
        · exact fun a ha => hextnn a (List.mem_cons_of_mem _ ha)
        · rw [hii, Nat.cast_sub hichips, he]
          omega
        · rw [hii, he, List.append_assoc]
          exact hacc

/-- **C6.** `find_all_positive_rank_v0_reduced_divisors(G, d, fn)` invokes
the callback exactly on the divisors that are effective, of degree `d`, with
a chip on vertex 0, v0-reduced, and of positive rank. -/
theorem find_all_correct (G : MyGraph) (hG : ValidGraph G) (d : ℕ) :
    ∃ fuel L, farRun G d fuel = some L ∧
      ∀ pd : List ℤ, pd ∈ L ↔ (pd.length = gn G ∧ EffOn G (divOf pd) ∧
        degSum G (divOf pd) = (d : ℤ) ∧ 1 ≤ divOf pd 0 ∧
        VReduced G (divOf pd) 0 ∧ PosRank G (divOf pd)) := by
  obtain ⟨L, hL, hLq⟩ := farAux_spec G hG (hprFuelD G d) (gn G) d 0 []
    (by simp) rfl (by simp) (by simp [hprFuelD])
  refine ⟨hprFuelD G d, L, hL, ?_⟩
  intro pd
  rw [hLq pd]
  constructor
  · rintro ⟨ext, hq, hlen, hnn, hsum, hpd0, hfs, hposr⟩
    rw [List.nil_append] at hq
    subst hq
    have hglen : pd.length = gn G := hlen
    have h0gn : 0 < gn G := by
      by_contra h0
      push_neg at h0
      have : pd.length = 0 := by omega
      have hnil : pd = [] := List.length_eq_zero.mp this
      subst hnil
      have : divOf ([] : List ℤ) 0 = 0 := rfl
      rw [this] at hpd0
      omega
    have heff : EffOn G (divOf pd) := effOn_divOf G pd hnn
    refine ⟨hglen, heff, ?_, by omega, ?_, hposr⟩
    · rw [degSum_divOf G pd hglen, hsum]
    · exact (dhar_reduced_iff G hG (divOf pd) 0 h0gn (fun v hv _ => heff v hv)).mp hfs
  · rintro ⟨hlen, heff, hdeg, hpd0, hred, hposr⟩
    have h0gn : 0 < gn G := by
      by_contra h0
      push_neg at h0
      have : pd.length = 0 := by omega
      have hnil : pd = [] := List.length_eq_zero.mp this
      subst hnil
      have : divOf ([] : List ℤ) 0 = 0 := rfl
      rw [this] at hpd0
      omega
    have hfs : burnFS G (divOf pd) 0 = [] :=
      (dhar_reduced_iff G hG (divOf pd) 0 h0gn (fun v hv _ => heff v hv)).mpr hred
    refine ⟨pd, by simp, hlen, divOf_entries_nonneg G pd hlen heff, ?_, by omega, hfs, hposr⟩
    rw [← degSum_divOf G pd hlen, hdeg]

/-- Witness for C6 on `P_2` with degree 1. -/
theorem find_all_correct_witness :
    ∃ fuel L, farRun gP2 1 fuel = some L ∧
      ∀ pd : List ℤ, pd ∈ L ↔ (pd.length = gn gP2 ∧ EffOn gP2 (divOf pd) ∧
        degSum gP2 (divOf pd) = (1 : ℤ) ∧ 1 ≤ divOf pd 0 ∧
        VReduced gP2 (divOf pd) 0 ∧ PosRank gP2 (divOf pd)) :=
  find_all_correct gP2 ((validB_iff gP2).mpr (by decide)) 1

theorem divOf_map_range (f : ℕ → ℤ) (n x : ℕ) (hx : x < n) :
    divOf ((List.range n).map f) x = f x := by
  unfold divOf
  rw [List.getD_eq_getElem _ _ (by simpa using hx)]
  simp

/-- On a connected non-empty graph, every effective positive-rank divisor
gives rise to an accepted leaf of the search tree of the same degree: its
v0-reduction, which carries a chip on vertex 0 by maximality. -/
theorem exists_accepted_of_posRank (G : MyGraph) (hG : ValidGraph G)
    (hc : Connected G) (h0 : 0 < gn G) (D : ℕ → ℤ) (hD : EffOn G D)
    (hpr : PosRank G D) :
    ∃ pd : List ℤ, pd.length = gn G ∧ (∀ a ∈ pd, 0 ≤ a) ∧
      pd.sum = degSum G D ∧ AcceptDiv G pd := by
  obtain ⟨fuel, p, hrun⟩ := reduce_terminates_connected G hG hc D hD 0 h0
  obtain ⟨D', sc'⟩ := p
  obtain ⟨hfs, hD'eff, hlapeq, _, _, hout⟩ :=
    reduceLoop_spec G hG 0 h0 fuel D (fun _ => 0) D' sc' hD hrun
  have hlin : LinEquiv G D D' := by
    refine ⟨fun v => sc' v - (fun _ => (0 : ℤ)) v, fun x hx => ?_, hlapeq⟩
    have := (hout x hx).1
    simp only []
    omega
  have hprD' : PosRank G D' := posRank_linEquiv G D D' hlin hpr
  have hdone : ∀ v ∈ Finset.range (gn G), v ∈ burnPushed G D' 0 := by
    intro v hv
    exact (burnFS_nil_iff G D' 0).mp hfs v (Finset.mem_range.mp hv)
  obtain ⟨E, hEeff, hElin, hE0⟩ := (posRank_iff_at G D').mp hprD' 0 h0
  have hD'0 : 1 ≤ D' 0 :=
    le_trans hE0 (reduced_maximizes G hG (Finset.range (gn G))
      (Finset.Subset.refl _) (range_closed G hG) 0 h0 (Finset.mem_range.mpr h0)
      D' hD'eff hdone E hEeff hElin)
  refine ⟨(List.range (gn G)).map D', by simp, ?_, ?_, ?_, ?_, ?_⟩
  · intro a ha
    obtain ⟨i, hi, rfl⟩ := List.mem_map.mp ha
    exact hD'eff i (List.mem_range.mp hi)
  · have h1 : degSum G (divOf ((List.range (gn G)).map D')) = degSum G D' :=
      Finset.sum_congr rfl fun x hx =>
        divOf_map_range D' (gn G) x (Finset.mem_range.mp hx)
    have h2 := degSum_divOf G ((List.range (gn G)).map D') (by simp)
    rw [← h2, h1, linEquiv_degSum G hG hlin]
  · rw [divOf_map_range D' (gn G) 0 h0]
    omega
  · rw [burnFS_congr_lt G hG 0 (divOf ((List.range (gn G)).map D')) D'
      (fun v hv => divOf_map_range D' (gn G) v hv)
      (fun v hv _ => effOn_divOf G _ (by
        intro a ha
        obtain ⟨i, hi, rfl⟩ := List.mem_map.mp ha
        exact hD'eff i (List.mem_range.mp hi)) v hv)]
    exact hfs
  · exact posRank_congr_lt G D' (divOf ((List.range (gn G)).map D'))
      (fun v hv => (divOf_map_range D' (gn G) v hv).symm) hprD'

/-- `find_positive_rank_divisor(G, chips)` returns `true` iff some divisor
with non-negative entries summing to `chips` passes all three checks. -/
theorem fprdRun_spec (G : MyGraph) (hG : ValidGraph G) (d fuel : ℕ)
    (hfuel : (d + 1) ^ gn G + 2 ≤ fuel) :
    ∃ b, fprdRun G d fuel = some b ∧
      (b = true ↔ ∃ pd : List ℤ, pd.length = gn G ∧ (∀ a ∈ pd, 0 ≤ a) ∧
        pd.sum = (d : ℤ) ∧ AcceptDiv G pd) := by
  obtain ⟨b, hb, hiff⟩ := fprdAux_spec G hG fuel (gn G) d 0 [] (by simp) rfl
    (by simp) (by simpa using hfuel)
  refine ⟨b, hb, ?_⟩
  rw [hiff]
  constructor
  · rintro ⟨ext, hlen, hnn, hsum, hacc⟩
    exact ⟨ext, hlen, hnn, hsum, by simpa using hacc⟩
  · rintro ⟨pd, hlen, hnn, hsum, hacc⟩
    exact ⟨pd, hlen, hnn, hsum, by simpa using hacc⟩

/-- The all-ones divisor is effective, has degree `n`, and has positive
rank (removing one chip anywhere leaves an effective divisor). -/
theorem allOnes_posRank (G : MyGraph) :
    ∃ D : ℕ → ℤ, EffOn G D ∧ degSum G D = (gn G : ℤ) ∧ PosRank G D := by
  refine ⟨fun _ => 1, fun x _ => one_pos.le, by simp [degSum], ?_⟩
  intro u _
  refine ⟨fun x => 1 - if x = u then 1 else 0, ?_, linEquiv_refl G _⟩
  intro x _
  show (0 : ℤ) ≤ 1 - if x = u then 1 else 0
  split <;> norm_num

theorem fgLoop_succ (G : MyGraph) (fuel b dg : ℕ) :
    fgLoop G fuel (b + 1) dg = match fprdRun G dg fuel with
      | none => none
      | some true => some dg
      | some false => if dg ≤ gn G then fgLoop G fuel b (dg + 1) else none := rfl

/-- The degree loop of `find_gonality` returns the first degree at which an
effective positive-rank divisor exists. -/
theorem fgLoop_finds (G : MyGraph) (hG : ValidGraph G) (hc : Connected G)
    (h0 : 0 < gn G) (fuel : ℕ) (hfuel : (gn G + 1) ^ gn G + 2 ≤ fuel)
    (d0 : ℕ) (hd01 : 1 ≤ d0) (hd0n : d0 ≤ gn G)
    (hP : ∃ D : ℕ → ℤ, EffOn G D ∧ degSum G D = (d0 : ℤ) ∧ PosRank G D)
    (hmin : ∀ d : ℕ, 1 ≤ d → d < d0 →
      ¬ ∃ D : ℕ → ℤ, EffOn G D ∧ degSum G D = (d : ℤ) ∧ PosRank G D) :
    ∀ b dg, 1 ≤ dg → dg ≤ d0 → d0 < dg + b → fgLoop G fuel b dg = some d0 := by
  intro b
  induction b with
  | zero => intro dg _ h1 h2; omega
  | succ b ih =>
    intro dg hdg1 hdgle hlt
    have hfdg : (dg + 1) ^ gn G + 2 ≤ fuel := by
      refine le_trans ?_ hfuel
      have := Nat.pow_le_pow_left (by omega : dg + 1 ≤ gn G + 1) (gn G)
      omega
    obtain ⟨bb, hrun, hiff⟩ := fprdRun_spec G hG dg fuel hfdg
    by_cases heq : dg = d0
    · subst heq
      obtain ⟨D, hDe, hDd, hDp⟩ := hP
      obtain ⟨pd, h1, h2, h3, h4⟩ :=
        exists_accepted_of_posRank G hG hc h0 D hDe hDp
      have hbb : bb = true := hiff.mpr ⟨pd, h1, h2, by rw [h3, hDd], h4⟩
      subst hbb
      rw [fgLoop_succ, hrun]
    · have hdglt : dg < d0 := lt_of_le_of_ne hdgle heq
      have hbb : bb = false := by
        cases bb with
        | false => rfl
        | true =>
          exfalso
          obtain ⟨pd, h1, h2, h3, h4⟩ := hiff.mp rfl
          exact hmin dg hdg1 hdglt
            ⟨divOf pd, effOn_divOf G pd h2, by rw [degSum_divOf G pd h1, h3],
              h4.2.2⟩
      subst hbb
      rw [fgLoop_succ, hrun]
      show (if dg ≤ gn G then fgLoop G fuel b (dg + 1) else none) = some d0
      rw [if_pos (by omega)]
      exact ih (dg + 1) (by omega) (by omega) (by omega)

/-- **C1.** On a valid non-empty connected graph, `find_gonality` (run with
enough fuel for the inner rank tests and at least `n` degree rounds)
terminates and returns the smallest `d ≥ 1` such that some effective
divisor of degree `d` has positive rank, and this `d` is at most `n`. -/
theorem find_gonality_correct (G : MyGraph) (hG : ValidGraph G)
    (hc : Connected G) (h0 : 0 < gn G) (fuel b : ℕ)
    (hfuel : hprFuelD G (gn G) ≤ fuel) (hb : gn G ≤ b) :
    ∃ d : ℕ, find_gonality G fuel b = some d ∧ 1 ≤ d ∧ d ≤ gn G ∧
      (∃ D : ℕ → ℤ, EffOn G D ∧ degSum G D = (d : ℤ) ∧ PosRank G D) ∧
      ∀ d' : ℕ, 1 ≤ d' →
        (∃ D : ℕ → ℤ, EffOn G D ∧ degSum G D = (d' : ℤ) ∧ PosRank G D) →
        d ≤ d' := by
  classical
  have hex : ∃ d : ℕ, 1 ≤ d ∧
      ∃ D : ℕ → ℤ, EffOn G D ∧ degSum G D = (d : ℤ) ∧ PosRank G D :=
    ⟨gn G, h0, allOnes_posRank G⟩
  have hd0n : Nat.find hex ≤ gn G := Nat.find_min' hex ⟨h0, allOnes_posRank G⟩
  refine ⟨Nat.find hex, ?_, (Nat.find_spec hex).1, hd0n, (Nat.find_spec hex).2,
    fun d' h1 hD => Nat.find_min' hex ⟨h1, hD⟩⟩
  unfold find_gonality
  refine fgLoop_finds G hG hc h0 fuel (by simpa [hprFuelD] using hfuel)
    (Nat.find hex) (Nat.find_spec hex).1 hd0n (Nat.find_spec hex).2
    (fun d h1 h2 hD => Nat.find_min hex h2 ⟨h1, hD⟩) b 1
    le_rfl (Nat.find_spec hex).1 (by omega)

/-- Witness for C1 on the connected graph `P_2`, whose gonality is 1. -/
theorem find_gonality_correct_witness :
    ∃ d : ℕ, find_gonality gP2 (hprFuelD gP2 (gn gP2)) (gn gP2) = some d ∧
      1 ≤ d ∧ d ≤ gn gP2 ∧
      (∃ D : ℕ → ℤ, EffOn gP2 D ∧ degSum gP2 D = (d : ℤ) ∧ PosRank gP2 D) ∧
      ∀ d' : ℕ, 1 ≤ d' →
        (∃ D : ℕ → ℤ, EffOn gP2 D ∧ degSum gP2 D = (d' : ℤ) ∧ PosRank gP2 D) →
        d ≤ d' :=
  find_gonality_correct gP2 ((validB_iff gP2).mpr (by decide))
    (connected_of_compFS gP2 ((validB_iff gP2).mpr (by decide)) (by decide)
      (by decide))
    (by decide) (hprFuelD gP2 (gn gP2)) (gn gP2) le_rfl le_rfl
